import Mathlib

set_option maxHeartbeats 1000000

deriving instance DecidableEq for Except

namespace Warehouse

/-!
Shallow embedding of the warehouse-server quantity ledger and category
hierarchy engines (src/app/services/item/item_update_service.py,
src/app/services/category/category_update_service.py,
src/app/services/category/category_delete_service.py) together with the
table constraints declared in src/app/table/.

Conventions of the embedding:
* UUIDs and household ids are plain strings (`uuid_to_str` is applied
  throughout the source before comparisons, so every comparison is a
  string comparison).
* A SQLAlchemy `AsyncSession` with `autoflush=False` (src/app/db/session.py)
  is modelled explicitly: pending INSERTs are invisible to SELECTs, rows
  pending DELETE are still returned by SELECTs, and in-memory attribute
  changes on identity-mapped rows are visible to later code.  `commit`
  flushes everything and enforces the declared unique constraints.
* `ValidationError(code)` raised by a service, and any SQLAlchemy error at
  flush/commit time, aborts the enclosing transaction; the router layer
  (`router_exception_handler` plus `get_db`) rolls the transaction back, so
  an error outcome leaves the database exactly as it was.  Operations are
  therefore functions `State → Except Err State`.
-/

/-- Error outcomes.  `requestPathInvalid` and `requestParametersInvalid`
model `ServerErrorCode.REQUEST_PATH_INVALID_*` and
`REQUEST_PARAMETERS_INVALID_*`; `categoryNameAlreadyExists` models
`CATEGORY_NAME_ALREADY_EXISTS_43`; `multipleResultsFound` models the
SQLAlchemy exception raised by `scalar_one_or_none` on a multi-row result;
`integrityError` models a database constraint violation at flush/commit;
`runtimeError` models an uncaught Python `AttributeError`/`TypeError`. -/
inductive Err where
  | requestPathInvalid
  | requestParametersInvalid
  | categoryNameAlreadyExists
  | multipleResultsFound
  | integrityError
  | runtimeError
deriving DecidableEq

/-- One committed row of the `item_cabinet_quantity` table
(src/app/table/item_cabinet_quantity.py): `cabinet_id` is nullable
(`none` is the "unassigned" pseudo-location) and `quantity` is an
integer column. -/
structure QRow where
  itemId : String
  cabinetId : Option String
  quantity : Int
deriving DecidableEq

/-- Status of an ORM object inside an open session. -/
inductive RowStatus where
  | persistent
  | deletedPending
  | newPending
deriving DecidableEq

/-- A ledger row as seen inside an open session: the committed identity
plus in-memory attribute values and the pending status. -/
structure SRow where
  itemId : String
  cabinetId : Option String
  quantity : Int
  status : RowStatus
deriving DecidableEq

def SRow.ofQRow (r : QRow) : SRow :=
  ⟨r.itemId, r.cabinetId, r.quantity, RowStatus.persistent⟩

def SRow.toQRow (r : SRow) : QRow :=
  ⟨r.itemId, r.cabinetId, r.quantity⟩

/-- The WHERE clause used by `update_item_position` for a cabinet key:
a concrete id matches exactly; the unassigned key matches rows whose
`cabinet_id` is NULL *or* the empty string
(`or_(ItemCabinetQuantity.cabinet_id.is_(None), ... == "")`). -/
def matchesCabinetKey (key : Option String) (rowCab : Option String) : Bool :=
  match key with
  | some c => rowCab == some c
  | none => rowCab == none || rowCab == some ""

/-- Indices of session rows visible to a SELECT for `(item_id, key)`:
pending INSERTs are not in the database yet (autoflush is off), while
rows pending DELETE are still returned. -/
def visibleMatches (s : List SRow) (itemId : String) (key : Option String) : List Nat :=
  (List.range s.length).filter (fun i =>
    match s[i]? with
    | some r =>
        r.status != RowStatus.newPending && r.itemId == itemId &&
          matchesCabinetKey key r.cabinetId
    | none => false)

/-- `Result.scalar_one_or_none()`: none on an empty result, the row on a
singleton, and an exception on two or more rows. -/
def scalarOneOrNone {α : Type} (l : List α) : Except Err (Option α) :=
  match l with
  | [] => Except.ok none
  | [x] => Except.ok (some x)
  | _ => Except.error Err.multipleResultsFound

/-- One leg of an `update_item_position` request
(`UpdateItemPositionCabinet` in src/app/schemas/item_request.py). -/
structure PositionLeg where
  oldCabinetId : Option String
  newCabinetId : Option String
  quantity : Int
  isDelete : Bool
deriving DecidableEq

/-- All concrete cabinet ids named by a position request
(`cabinet_ids_to_verify` in `update_item_position`). -/
def namedCabinetIds (legs : List PositionLeg) : List String :=
  legs.flatMap (fun l => l.oldCabinetId.toList ++ l.newCabinetId.toList)

/-- The validation pass of `update_item_position` for one leg
(lines 245-273): SELECT the source row from the (still unmutated)
database; a non-delete leg requires the row to exist and to hold at
least the requested quantity. -/
def validatePositionLeg (s0 : List SRow) (itemId : String) (leg : PositionLeg) :
    Except Err Unit := do
  let oldIdx ← scalarOneOrNone (visibleMatches s0 itemId leg.oldCabinetId)
  match oldIdx with
  | none =>
      if leg.isDelete then Except.ok () else Except.error Err.requestParametersInvalid
  | some i =>
      if leg.isDelete then Except.ok ()
      else
        match s0[i]? with
        | none => Except.error Err.runtimeError
        | some r =>
            if r.quantity < leg.quantity then Except.error Err.requestParametersInvalid
            else Except.ok ()

def validatePositionLegs (s0 : List SRow) (itemId : String) :
    List PositionLeg → Except Err Unit
  | [] => Except.ok ()
  | leg :: rest => do
      let _ ← validatePositionLeg s0 itemId leg
      validatePositionLegs s0 itemId rest

/-- The apply pass of `update_item_position` for one leg (lines 278-351),
running inside the open session: re-SELECT the source row (a row deleted
by an earlier leg is still returned, with its in-memory attributes), then
either mark it deleted (`is_delete`, or the whole quantity moves) or
decrement it; for a non-delete leg, SELECT the destination row and either
increment it or add a pending INSERT. -/
def applyPositionLeg (itemId : String) (s : List SRow) (leg : PositionLeg) :
    Except Err (List SRow) := do
  let oldIdx ← scalarOneOrNone (visibleMatches s itemId leg.oldCabinetId)
  if leg.isDelete then
    match oldIdx with
    | some i =>
        match s[i]? with
        | some r => Except.ok (s.set i { r with status := RowStatus.deletedPending })
        | none => Except.ok s
    | none => Except.ok s
  else
    match oldIdx with
    | none => Except.error Err.runtimeError
    | some i =>
        match s[i]? with
        | none => Except.error Err.runtimeError
        | some r => do
            let s1 :=
              if r.quantity == leg.quantity then
                s.set i { r with status := RowStatus.deletedPending }
              else
                s.set i { r with quantity := r.quantity - leg.quantity }
            let newIdx ← scalarOneOrNone (visibleMatches s1 itemId leg.newCabinetId)
            match newIdx with
            | some j =>
                match s1[j]? with
                | none => Except.error Err.runtimeError
                | some r2 =>
                    Except.ok (s1.set j { r2 with quantity := r2.quantity + leg.quantity })
            | none =>
                Except.ok
                  (s1 ++ [⟨itemId, leg.newCabinetId, leg.quantity, RowStatus.newPending⟩])

def applyPositionLegs (itemId : String) :
    List SRow → List PositionLeg → Except Err (List SRow)
  | s, [] => Except.ok s
  | s, leg :: rest => do
      let s' ← applyPositionLeg itemId s leg
      applyPositionLegs itemId s' rest

/-- Whether flushing the pending INSERTs `inserted` into a table currently
holding `existing` violates the unique constraint on
`(item_id, cabinet_id)`.  Per PostgreSQL semantics NULL cabinet ids never
collide; SQLAlchemy flushes INSERTs before DELETEs, so rows pending
DELETE still count as existing. -/
def insertClash (existing : List QRow) : List QRow → Bool
  | [] => false
  | a :: rest =>
      (a.cabinetId != none &&
        (existing.any (fun b => b.itemId == a.itemId && b.cabinetId == a.cabinetId) ||
          rest.any (fun b => b.itemId == a.itemId && b.cabinetId == a.cabinetId))) ||
      insertClash existing rest

/-- `db.commit()`: flush all pending work and either fail with an
integrity error (whole transaction rolled back) or produce the new
committed table contents. -/
def commitSession (s : List SRow) : Except Err (List QRow) :=
  let existing := (s.filter (fun r => r.status != RowStatus.newPending)).map SRow.toQRow
  let inserted := (s.filter (fun r => r.status == RowStatus.newPending)).map SRow.toQRow
  if insertClash existing inserted then Except.error Err.integrityError
  else Except.ok ((s.filter (fun r => r.status != RowStatus.deletedPending)).map SRow.toQRow)

/-- `update_item_position` (src/app/services/item/item_update_service.py,
lines 201-360).  `items` is the set of item ids of the household (the
initial `select(Item)` lookup), `householdCabinets` the cabinet ids
belonging to the household.  Phase order follows the source: item lookup,
bulk cabinet ownership check, per-leg validation against the unmutated
database, then the sequential apply pass and the commit. -/
def update_item_position (items : List String) (householdCabinets : List String)
    (itemId : String) (legs : List PositionLeg) (db : List QRow) :
    Except Err (List QRow) := do
  if !(items.contains itemId) then Except.error Err.requestPathInvalid
  else if (namedCabinetIds legs).any (fun c => !(householdCabinets.contains c)) then
    Except.error Err.requestPathInvalid
  else do
    let s0 : List SRow := db.map SRow.ofQRow
    let _ ← validatePositionLegs s0 itemId legs
    let s ← applyPositionLegs itemId s0 legs
    commitSession s

/-- The router-level checks of src/app/routers/item/item_update_position.py
(`_error_check`): a non-empty leg list, and for every non-delete leg a
source different from the destination and a quantity of at least 1. -/
def positionRouterCheck : List PositionLeg → Except Err Unit
  | [] => Except.error Err.requestParametersInvalid
  | legs =>
      if legs.any (fun leg =>
          !leg.isDelete && (leg.oldCabinetId == leg.newCabinetId || leg.quantity < 1)) then
        Except.error Err.requestParametersInvalid
      else Except.ok ()

/-- The full position-update endpoint: router checks, then the service. -/
def update_item_position_endpoint (items : List String) (householdCabinets : List String)
    (itemId : String) (legs : List PositionLeg) (db : List QRow) :
    Except Err (List QRow) := do
  let _ ← positionRouterCheck legs
  update_item_position items householdCabinets itemId legs db

/-- One entry of an `update_item_quantity` request
(`UpdateItemQuantityCabinet` in src/app/schemas/item_request.py). -/
structure QuantityLeg where
  cabinetId : Option String
  quantity : Int
deriving DecidableEq

/-- The `quantities_dict` lookup of `update_item_quantity`: the dict is
built once from the item's rows keyed by the raw `cabinet_id` value, a
later row overwriting an earlier one, so a lookup designates the last
matching row of the SELECT. -/
def findLastIdx (ex : List QRow) (itemId : String) (key : Option String) : Option Nat :=
  ((List.range ex.length).filter (fun i =>
    match ex[i]? with
    | some r => r.itemId == itemId && r.cabinetId == key
    | none => false)).getLast?

/-- Whether a quantity leg survives the cabinet lookup: a leg naming a
cabinet id is kept only when the id was found among the household's
cabinets; the unassigned (`None`) leg is always kept. -/
def quantityLegKnown (householdCabinets : List String) (leg : QuantityLeg) : Bool :=
  match leg.cabinetId with
  | some c => householdCabinets.contains c
  | none => true

/-- One iteration of the `update_item_quantity` loop (lines 150-190):
a leg naming a cabinet that was not found for the household is silently
skipped (`continue`); otherwise the existing row for the key is updated
in place, or a pending INSERT is recorded.  The state is the pair of the
item table rows (mutated in place) and the rows added so far (invisible
to the dict, which was built before the loop). -/
def applyQuantityLeg (itemId : String) (householdCabinets : List String)
    (st : List QRow × List QRow) (leg : QuantityLeg) : List QRow × List QRow :=
  let ex := st.1
  let app := st.2
  if !(quantityLegKnown householdCabinets leg) then st
  else
    match findLastIdx ex itemId leg.cabinetId with
    | some i =>
        match ex[i]? with
        | some r => (ex.set i { r with quantity := leg.quantity }, app)
        | none => st
    | none => (ex, app ++ [⟨itemId, leg.cabinetId, leg.quantity⟩])

/-- `update_item_quantity` (src/app/services/item/item_update_service.py,
lines 103-197): item lookup, then the per-leg upsert loop, then the
commit (which can only fail on the unique constraint for freshly
inserted duplicate keys). -/
def update_item_quantity (items : List String) (householdCabinets : List String)
    (itemId : String) (legs : List QuantityLeg) (db : List QRow) :
    Except Err (List QRow) := do
  if !(items.contains itemId) then Except.error Err.requestPathInvalid
  else
    let st := legs.foldl (applyQuantityLeg itemId householdCabinets) (db, [])
    if insertClash st.1 st.2 then Except.error Err.integrityError
    else Except.ok (st.1 ++ st.2)

/-- Sum of an item's ledger quantities over all locations, the unassigned
pseudo-location included (`totalQuantity` of the spec). -/
def totalQuantity (rows : List QRow) (itemId : String) : Int :=
  ((rows.filter (fun r => r.itemId == itemId)).map (fun r => r.quantity)).sum

/-! ### Category hierarchy engine -/

/-- One row of the `category` table (src/app/table/category.py). -/
structure Category where
  id : String
  householdId : String
  name : String
  parentId : Option String
  level : Int
deriving DecidableEq

/-- The two CHECK constraints declared on the `category` table:
`level IN (1, 2, 3)` and
`(parent_id IS NULL AND level = 1) OR (parent_id IS NOT NULL AND level IN (2, 3))`. -/
def category_row_constraints_ok (c : Category) : Bool :=
  (c.level == 1 || c.level == 2 || c.level == 3) &&
  (match c.parentId with
   | none => c.level == 1
   | some _ => c.level == 2 || c.level == 3)

/-- The foreign key `category.parent_id → category.id`: a non-null parent
reference must resolve to an existing row. -/
def category_fk_parent_ok (db : List Category) (c : Category) : Bool :=
  match c.parentId with
  | none => true
  | some p => db.any (fun q => q.id == p)

/-- Flushing an UPDATE of one category row (`db.flush()` in
`update_category`): the database re-checks the row's CHECK constraints and
the parent foreign key; a violation raises an IntegrityError, which rolls
the whole transaction back. -/
def flush_category_update (db : List Category) (target : Category) :
    Except Err (List Category) :=
  let db' := db.map (fun c => if c.id == target.id then target else c)
  if category_row_constraints_ok target && category_fk_parent_ok db' target then
    Except.ok db'
  else Except.error Err.integrityError

/-- Python `str.strip()` as used on category and item names: removes
leading and trailing whitespace.  (Implemented over the character list so
that it evaluates by kernel reduction.) -/
def pyStrip (s : String) : String :=
  String.mk (((s.toList.dropWhile Char.isWhitespace).reverse.dropWhile
    Char.isWhitespace).reverse)

/-- `str_to_uuid` (src/app/utils/util_uuid.py): a malformed string - in
particular the empty string - parses to None; a well-formed uuid string
parses to itself. -/
def str_to_uuid? (s : String) : Option String :=
  if s == "" then none else some s

/-- SELECT of a category row by id (no household filter), followed by
`scalar_one_or_none`. -/
def category_by_id (db : List Category) (cid : String) : Except Err (Option Category) :=
  scalarOneOrNone (db.filter (fun c => c.id == cid))

/-- Direct children of a category (`Category.parent_id == current_id`). -/
def children_of (db : List Category) (cid : String) : List Category :=
  db.filter (fun c => c.parentId == some cid)

/-- `MAX_LEVEL_NUM` of category_update_service.py. -/
def MAX_LEVEL_NUM : Nat := 3

/-- The ancestor-name walk of `get_level_names`
(src/app/services/category/category_read_service.py, lines 100-137):
starting at `current`, names are collected root-first while walking up
`parent_id`; a revisited id (data-corruption cycle) raises; a missing
parent row ends the walk.  The `fuel` argument bounds the unbounded
Python loop; it is always called with more fuel than any well-formed
ancestor chain is long. -/
def get_level_names_aux (db : List Category) :
    Nat → List String → Category → Except Err (List String)
  | 0, _, _ => Except.ok []
  | fuel + 1, visited, current =>
      if visited.contains current.id then Except.error Err.requestParametersInvalid
      else
        match current.parentId with
        | none => Except.ok [current.name]
        | some pid => do
            let parent? ← category_by_id db pid
            match parent? with
            | none => Except.ok [current.name]
            | some parent => do
                let rest ← get_level_names_aux db fuel (current.id :: visited) parent
                Except.ok (rest ++ [current.name])

/-- `get_level_names`: the empty path for no category, an error for a
dangling id, otherwise the root-first list of ancestor names ending in
the category's own name. -/
def get_level_names (db : List Category) (categoryId : Option String) :
    Except Err (List String) :=
  match categoryId with
  | none => Except.ok []
  | some cid => do
      let current? ← category_by_id db cid
      match current? with
      | none => Except.error Err.requestParametersInvalid
      | some c => get_level_names_aux db (db.length + 4) [] c

/-- `_check_children_level_recursive`
(category_update_service.py, lines 175-202): the depth of the subtree
under `cid` counted from `currentLevel`, capped at `MAX_LEVEL_NUM`
(the early return on reaching the cap is extensionally the cap).  The
recursion is driven by the guard `current_level >= MAX_LEVEL_NUM`, so it
descends at most `MAX_LEVEL_NUM - currentLevel` times; `fuel` makes that
bound structural: it is consumed once per descent and the fuel-0 answer
`MAX_LEVEL_NUM` is only ever produced when the guard would produce it
too. -/
def check_children_level_aux (db : List Category) :
    Nat → String → Nat → Nat
  | 0, _, _ => MAX_LEVEL_NUM
  | fuel + 1, cid, currentLevel =>
      if MAX_LEVEL_NUM ≤ currentLevel then MAX_LEVEL_NUM
      else
        let childIds := (children_of db cid).map (fun c => c.id)
        if childIds.isEmpty then currentLevel
        else
          (childIds.map (fun c => check_children_level_aux db fuel c (currentLevel + 1))).foldl
            max currentLevel

def check_children_level_recursive (db : List Category) (cid : String)
    (currentLevel : Nat) : Nat :=
  check_children_level_aux db MAX_LEVEL_NUM cid currentLevel

/-- `_get_children_max_level_num` (lines 140-153): 0 for a missing
category, otherwise the capped subtree depth starting at level 1. -/
def get_children_max_level_num (db : List Category) (cid : String) : Except Err Nat := do
  let c? ← category_by_id db cid
  match c? with
  | none => Except.ok 0
  | some _ => Except.ok (check_children_level_recursive db cid 1)

/-- `_get_all_descendant_ids` (lines 155-173): every transitive descendant
id of `cid`, the category itself excluded; `fuel` bounds the unbounded
Python recursion. -/
def collect_descendant_ids (db : List Category) : Nat → String → List String
  | 0, _ => []
  | fuel + 1, currentId =>
      ((children_of db currentId).map (fun c => c.id)).flatMap
        (fun childId => childId :: collect_descendant_ids db fuel childId)

/-- `_get_children_ids` of category_delete_service.py (lines 58-76): the
category itself followed by every transitive descendant id. -/
def get_children_ids (db : List Category) : Nat → String → List String
  | 0, _ => []
  | fuel + 1, currentId =>
      currentId ::
        ((children_of db currentId).map (fun c => c.id)).flatMap
          (get_children_ids db fuel)

/-- `UpdateCategoryRequestModel` (src/app/schemas/category_request.py):
`parent_id` is an optional raw string (the empty string requests a move
to the root group). -/
structure UpdateCategoryRequest where
  householdId : String
  categoryId : String
  name : Option String
  parentId : Option String
deriving DecidableEq

/-- `update_category` (src/app/services/category/category_update_service.py,
lines 21-115).  Branch structure follows the source: category lookup,
old-path computation, name trimming, then one of the three parent branches
(no parent change / clear parent / reparent under a node with
self-reference check, descendant-cycle check, capped-depth level check and
sibling duplicate-name check), ending in a flush of the single updated row
(skipped when nothing changed).  Any error leaves the database unchanged
(transaction rollback). -/
def update_category (req : UpdateCategoryRequest) (db : List Category) :
    Except Err (List Category) := do
  let category? ← scalarOneOrNone
    (db.filter (fun c => c.id == req.categoryId && c.householdId == req.householdId))
  match category? with
  | none => Except.error Err.requestPathInvalid
  | some category => do
      let _oldLevelName ← get_level_names db category.parentId
      let nameRes : Except Err (String × Bool) :=
        match req.name with
        | none => Except.ok (category.name, false)
        | some n =>
            let trimmed := pyStrip n
            if trimmed.length == 0 then Except.error Err.requestParametersInvalid
            else if trimmed != category.name then Except.ok (trimmed, true)
            else Except.ok (category.name, false)
      let nb ← nameRes
      let newName := nb.1
      let isNameChanged := nb.2
      match req.parentId with
      | none =>
          if isNameChanged then flush_category_update db { category with name := newName }
          else Except.ok db
      | some pidStr =>
          if pidStr == "" && category.parentId != none then
            flush_category_update db { category with name := newName, parentId := none }
          else
            match str_to_uuid? pidStr with
            | none => Except.error Err.requestParametersInvalid
            | some pid =>
                if pid == req.categoryId then Except.error Err.requestParametersInvalid
                else
                  let allChildrenIds := collect_descendant_ids db (db.length + 4) category.id
                  if allChildrenIds.contains pid then Except.error Err.requestParametersInvalid
                  else do
                    let newLevelName ← get_level_names db (some pid)
                    let categoryLevelNum ← get_children_max_level_num db category.id
                    if MAX_LEVEL_NUM < categoryLevelNum + newLevelName.length then
                      Except.error Err.requestParametersInvalid
                    else do
                      let dup? ← scalarOneOrNone (db.filter (fun c =>
                        c.householdId == req.householdId && c.name == newName &&
                          c.parentId == some pid))
                      match dup? with
                      | some _ => Except.error Err.categoryNameAlreadyExists
                      | none =>
                          flush_category_update db
                            { category with name := newName, parentId := some pid }

/-- One row of the `item` table, restricted to the fields the category
engine touches: `category_id` is a weak reference declared with
`ForeignKey("category.id", ondelete="SET NULL")` (src/app/table/item.py,
line 14). -/
structure ItemRow where
  id : String
  householdId : String
  categoryId : Option String
deriving DecidableEq

/-- `DeleteCategoryRequestModel`. -/
structure DeleteCategoryRequest where
  householdId : String
  categoryId : String
deriving DecidableEq

/-- `delete_category` (src/app/services/category/category_delete_service.py,
lines 17-53): look the category up, enumerate it and all descendants, delete
every enumerated row in one statement, apply the `ondelete="SET NULL"`
foreign-key action to items referencing a deleted row, and emit exactly one
delete record carrying the deleted category's name.  The returned triple is
(remaining category rows, item rows after the FK action, list of emitted
delete-record names). -/
def delete_category (req : DeleteCategoryRequest) (db : List Category)
    (items : List ItemRow) :
    Except Err (List Category × List ItemRow × List String) := do
  let category? ← scalarOneOrNone
    (db.filter (fun c => c.id == req.categoryId && c.householdId == req.householdId))
  match category? with
  | none => Except.error Err.requestPathInvalid
  | some category =>
      let deleteIds := get_children_ids db (db.length + 4) req.categoryId
      let db' := db.filter (fun c => !(deleteIds.contains c.id))
      let items' := items.map (fun it =>
        match it.categoryId with
        | some cid => if deleteIds.contains cid then { it with categoryId := none } else it
        | none => it)
      Except.ok (db', items', [category.name])

/-- Strict-descendant relation generated by the stored `parent_id` edges:
`IsDescendant db a y` holds when the row with id `y` is reachable from the
category id `a` by one or more child steps. -/
inductive IsDescendant (db : List Category) : String → String → Prop where
  | child (c : Category) (hc : c ∈ db) (hp : c.parentId = some a) :
      IsDescendant db a c.id
  | step (c : Category) (hc : c ∈ db) (hp : c.parentId = some p)
      (h : IsDescendant db a p) : IsDescendant db a c.id

/-- Well-formedness of a category table: distinct ids, levels within the
3-level bound, roots at level 1, child levels one below their parent's,
and no dangling parent references.  These are exactly the invariants the
table constraints and the create path maintain. -/
def CatWF (db : List Category) : Prop :=
  (db.map (fun c => c.id)).Nodup ∧
  (∀ c ∈ db, 1 ≤ c.level ∧ c.level ≤ 3) ∧
  (∀ c ∈ db, c.parentId = none → c.level = 1) ∧
  (∀ c ∈ db, ∀ q ∈ db, c.parentId = some q.id → c.level = q.level + 1) ∧
  (∀ c ∈ db, c.parentId = none ∨ ∃ q ∈ db, c.parentId = some q.id)

instance (db : List Category) : Decidable (CatWF db) := by
  unfold CatWF; infer_instance

/-! ## Theorems -/

/-! ### Shared lemmas -/

theorem except_bind_ok {ε α β : Type} (a : α) (f : α → Except ε β) :
    (Except.ok a >>= f) = f a := rfl

theorem except_bind_err {ε α β : Type} (e : ε) (f : α → Except ε β) :
    ((Except.error e : Except ε α) >>= f) = Except.error e := rfl

theorem insertClash_nil (ex : List QRow) : insertClash ex [] = false := rfl

theorem scalarOneOrNone_ok_none {α : Type} {l : List α}
    (h : scalarOneOrNone l = Except.ok none) : l = [] := by
  cases l with
  | nil => rfl
  | cons x xs => cases xs <;> simp [scalarOneOrNone] at h

theorem scalarOneOrNone_ok_some {α : Type} {l : List α} {x : α}
    (h : scalarOneOrNone l = Except.ok (some x)) : l = [x] := by
  match l, h with
  | [y], h => simp [scalarOneOrNone] at h; simp [h]

theorem visibleMatches_mem {s : List SRow} {itemId : String} {key : Option String}
    {i : Nat} (h : i ∈ visibleMatches s itemId key) :
    ∃ r, s[i]? = some r ∧ r.status ≠ RowStatus.newPending ∧ r.itemId = itemId ∧
      matchesCabinetKey key r.cabinetId = true := by
  unfold visibleMatches at h
  have h' := List.mem_filter.mp h
  rcases h' with ⟨-, hp⟩
  cases hs : s[i]? with
  | none => rw [hs] at hp; simp at hp
  | some r =>
      rw [hs] at hp
      refine ⟨r, rfl, ?_, ?_, ?_⟩ <;> simp at hp <;> tauto

/-! ### Claim C1, amended -/

/-- A leg whose source check fails against the initial database snapshot:
every row of the item matching the leg's source key (if any) holds less
than the requested quantity. -/
theorem validatePositionLeg_insufficient {db : List QRow} {itemId : String}
    {leg : PositionLeg} (hdel : leg.isDelete = false)
    (hins : ∀ r ∈ db, r.itemId = itemId →
      matchesCabinetKey leg.oldCabinetId r.cabinetId = true →
      r.quantity < leg.quantity) :
    ∃ e, validatePositionLeg (db.map SRow.ofQRow) itemId leg = Except.error e := by
  unfold validatePositionLeg
  cases hscal : scalarOneOrNone (visibleMatches (db.map SRow.ofQRow) itemId leg.oldCabinetId) with
  | error e => exact ⟨e, rfl⟩
  | ok o =>
      cases o with
      | none =>
          refine ⟨Err.requestParametersInvalid, ?_⟩
          simp [except_bind_ok, hdel]
      | some i =>
          have hl := scalarOneOrNone_ok_some hscal
          have hi : i ∈ visibleMatches (db.map SRow.ofQRow) itemId leg.oldCabinetId := by
            rw [hl]; exact List.mem_singleton.mpr rfl
          rcases visibleMatches_mem hi with ⟨r, hr, -, hitem, hmatch⟩
          rw [List.getElem?_map] at hr
          cases hdb : db[i]? with
          | none => rw [hdb] at hr; simp at hr
          | some r0 =>
              rw [hdb] at hr
              simp only [Option.map_some'] at hr
              have hr0 : r = SRow.ofQRow r0 := by injection hr with h'; exact h'.symm
              have hmem : r0 ∈ db := List.mem_iff_getElem?.mpr ⟨i, hdb⟩
              have hlt : r0.quantity < leg.quantity := by
                apply hins r0 hmem
                · rw [← hitem, hr0]; rfl
                · rw [← hmatch, hr0]; rfl
              refine ⟨Err.requestParametersInvalid, ?_⟩
              simp only [except_bind_ok, hdel]
              simp only [Bool.false_eq_true, if_false]
              rw [List.getElem?_map, hdb]
              simp only [Option.map_some']
              simp [SRow.ofQRow, hlt]

theorem validatePositionLegs_err {s0 : List SRow} {itemId : String}
    {legs : List PositionLeg}
    (h : ∃ leg ∈ legs, ∃ e, validatePositionLeg s0 itemId leg = Except.error e) :
    ∃ e, validatePositionLegs s0 itemId legs = Except.error e := by
  induction legs with
  | nil => rcases h with ⟨leg, hmem, -⟩; cases hmem
  | cons head rest ih =>
      cases hv : validatePositionLeg s0 itemId head with
      | error e => exact ⟨e, by unfold validatePositionLegs; rw [hv]; rfl⟩
      | ok u =>
          rcases h with ⟨leg, hmem, e, herr⟩
          rcases List.mem_cons.mp hmem with heq | hrest
          · rw [heq] at herr; rw [hv] at herr; cases herr
          · rcases ih ⟨leg, hrest, e, herr⟩ with ⟨e', herr'⟩
            refine ⟨e', ?_⟩
            unfold validatePositionLegs
            rw [hv, except_bind_ok, herr']

/-- Claim C1, amended.  Each leg's source-sufficiency is validated against
the ledger state at the start of the call (the original snapshot) - not
against the state as it would be after prior legs - and a request
containing a snapshot-insufficient leg is rejected before any mutation,
the transaction being rolled back, so the ledger is unchanged.  In
particular the spec's example batch `[(A→B,4), (B→C,4)]` from `A ↦ 4`
fails (see the counterexample theorem). -/
theorem C1_snapshot_validation (items householdCabinets : List String)
    (itemId : String) (legs : List PositionLeg) (db : List QRow)
    (h : ∃ leg ∈ legs, leg.isDelete = false ∧ ∀ r ∈ db, r.itemId = itemId →
      matchesCabinetKey leg.oldCabinetId r.cabinetId = true →
      r.quantity < leg.quantity) :
    ∃ e, update_item_position items householdCabinets itemId legs db = Except.error e := by
  unfold update_item_position
  cases h1 : (!(items.contains itemId)) with
  | true => exact ⟨Err.requestPathInvalid, rfl⟩
  | false =>
      cases h2 : ((namedCabinetIds legs).any fun c => !(householdCabinets.contains c)) with
      | true => exact ⟨Err.requestPathInvalid, rfl⟩
      | false =>
          rcases h with ⟨leg, hmem, hdel, hins⟩
          have hval : ∃ e, validatePositionLegs (db.map SRow.ofQRow) itemId legs
              = Except.error e :=
            validatePositionLegs_err
              ⟨leg, hmem, validatePositionLeg_insufficient hdel hins⟩
          rcases hval with ⟨e, he⟩
          exact ⟨e, by simp only [he]; rfl⟩

/-- Witness for the amended claim C1 at the spec's own example: the batch
`[(A→B,4), (B→C,4)]` from `A ↦ 4` has a snapshot-insufficient second leg
(no row for `B` exists in the snapshot), so the call errors. -/
theorem C1_snapshot_validation_witness :
    ∃ e, update_item_position ["X"] ["A", "B", "C"] "X"
      [⟨some "A", some "B", 4, false⟩, ⟨some "B", some "C", 4, false⟩]
      [⟨"X", some "A", 4⟩] = Except.error e :=
  C1_snapshot_validation ["X"] ["A", "B", "C"] "X"
    [⟨some "A", some "B", 4, false⟩, ⟨some "B", some "C", 4, false⟩]
    [⟨"X", some "A", 4⟩]
    ⟨⟨some "B", some "C", 4, false⟩, by decide, by decide, by decide⟩

/-! ### Claim C10 -/

theorem findLastIdx_spec {ex : List QRow} {itemId : String} {key : Option String}
    {i : Nat} (h : findLastIdx ex itemId key = some i) :
    ∃ r, ex[i]? = some r ∧ r.itemId = itemId ∧ r.cabinetId = key := by
  unfold findLastIdx at h
  have hi := List.mem_of_mem_getLast? h
  have h' := List.mem_filter.mp hi
  rcases h' with ⟨-, hp⟩
  cases hs : ex[i]? with
  | none => rw [hs] at hp; simp at hp
  | some r =>
      rw [hs] at hp
      simp at hp
      exact ⟨r, rfl, hp.1, hp.2⟩

theorem applyQuantityLeg_invariant {itemId : String} {cabs : List String}
    {K : List (Option String)} {db : List QRow} {st : List QRow × List QRow}
    {leg : QuantityLeg} (hleg : leg.cabinetId ∈ K)
    (h1 : st.1.length = db.length)
    (h2 : ∀ (i : Nat) (r' : QRow), st.1[i]? = some r' → ∃ r, db[i]? = some r ∧
      r'.itemId = r.itemId ∧ r'.cabinetId = r.cabinetId)
    (h3 : ∀ (i : Nat) (r r' : QRow), db[i]? = some r → st.1[i]? = some r' →
      (r.itemId ≠ itemId ∨ r.cabinetId ∉ K) → r' = r)
    (h4 : ∀ r' ∈ st.2, QRow.itemId r' = itemId ∧ r'.cabinetId ∈ K) :
    (applyQuantityLeg itemId cabs st leg).1.length = db.length ∧
    (∀ (i : Nat) (r' : QRow), (applyQuantityLeg itemId cabs st leg).1[i]? = some r' →
      ∃ r, db[i]? = some r ∧ r'.itemId = r.itemId ∧ r'.cabinetId = r.cabinetId) ∧
    (∀ (i : Nat) (r r' : QRow), db[i]? = some r →
      (applyQuantityLeg itemId cabs st leg).1[i]? = some r' →
      (r.itemId ≠ itemId ∨ r.cabinetId ∉ K) → r' = r) ∧
    (∀ r' ∈ (applyQuantityLeg itemId cabs st leg).2,
      QRow.itemId r' = itemId ∧ r'.cabinetId ∈ K) := by
  unfold applyQuantityLeg
  cases hk : (!(quantityLegKnown cabs leg)) with
  | true => exact ⟨h1, h2, h3, h4⟩
  | false =>
      simp only [Bool.false_eq_true, if_false]
      cases hf : findLastIdx st.1 itemId leg.cabinetId with
      | none =>
          refine ⟨h1, h2, h3, ?_⟩
          intro r' hr'
          rcases List.mem_append.mp hr' with hmem | hmem
          · exact h4 r' hmem
          · rcases List.mem_singleton.mp hmem with rfl
            exact ⟨rfl, hleg⟩
      | some i =>
          rcases findLastIdx_spec hf with ⟨r, hri, hrit, hrcab⟩
          dsimp only
          rw [hri]
          refine ⟨?_, ?_, ?_, h4⟩
          · rw [List.length_set]; exact h1
          · intro j r' hj
            by_cases hij : i = j
            · subst hij
              rw [List.getElem?_set, if_pos rfl] at hj
              have hilen : i < st.1.length := by
                rcases List.getElem?_eq_some.mp hri with ⟨hlt, -⟩
                exact hlt
              rw [if_pos hilen] at hj
              injection hj with hj'
              rcases h2 i r hri with ⟨r0, hr0, hit, hcab⟩
              exact ⟨r0, hr0, by rw [← hj']; exact hit, by rw [← hj']; exact hcab⟩
            · rw [List.getElem?_set_ne hij] at hj
              exact h2 j r' hj
          · intro j r0 r' hdbj hj hcond
            by_cases hij : i = j
            · subst hij
              exfalso
              rcases h2 i r hri with ⟨r1, hr1, hit, hcab⟩
              rw [hdbj] at hr1
              injection hr1 with hr1'
              subst hr1'
              rcases hcond with hcond | hcond
              · exact hcond (by rw [← hit, hrit])
              · exact hcond (by rw [← hcab, hrcab]; exact hleg)
            · rw [List.getElem?_set_ne hij] at hj
              exact h3 j r0 r' hdbj hj hcond

theorem foldl_quantity_invariant {itemId : String} {cabs : List String}
    {K : List (Option String)} {db : List QRow} (legs : List QuantityLeg)
    (hK : ∀ leg ∈ legs, leg.cabinetId ∈ K) :
    ∀ st : List QRow × List QRow,
      st.1.length = db.length →
      (∀ (i : Nat) (r' : QRow), st.1[i]? = some r' → ∃ r, db[i]? = some r ∧
        r'.itemId = r.itemId ∧ r'.cabinetId = r.cabinetId) →
      (∀ (i : Nat) (r r' : QRow), db[i]? = some r → st.1[i]? = some r' →
        (r.itemId ≠ itemId ∨ r.cabinetId ∉ K) → r' = r) →
      (∀ r' ∈ st.2, QRow.itemId r' = itemId ∧ r'.cabinetId ∈ K) →
      (legs.foldl (applyQuantityLeg itemId cabs) st).1.length = db.length ∧
      (∀ (i : Nat) (r' : QRow),
        (legs.foldl (applyQuantityLeg itemId cabs) st).1[i]? = some r' →
        ∃ r, db[i]? = some r ∧ r'.itemId = r.itemId ∧ r'.cabinetId = r.cabinetId) ∧
      (∀ (i : Nat) (r r' : QRow), db[i]? = some r →
        (legs.foldl (applyQuantityLeg itemId cabs) st).1[i]? = some r' →
        (r.itemId ≠ itemId ∨ r.cabinetId ∉ K) → r' = r) ∧
      (∀ r' ∈ (legs.foldl (applyQuantityLeg itemId cabs) st).2,
        QRow.itemId r' = itemId ∧ r'.cabinetId ∈ K) := by
  induction legs with
  | nil => intro st h1 h2 h3 h4; exact ⟨h1, h2, h3, h4⟩
  | cons head rest ih =>
      intro st h1 h2 h3 h4
      have hstep := @applyQuantityLeg_invariant itemId cabs K db st head
        (hK head (List.mem_cons_self head rest)) h1 h2 h3 h4
      rcases hstep with ⟨g1, g2, g3, g4⟩
      have hK' : ∀ leg ∈ rest, leg.cabinetId ∈ K :=
        fun leg hmem => hK leg (List.mem_cons_of_mem head hmem)
      have := ih hK' (applyQuantityLeg itemId cabs st head) g1 g2 g3 g4
      simpa [List.foldl_cons] using this

/-- Claim C10, confirmed.  `update_item_quantity` patches only the
`(item, location)` pairs listed in the request: every committed row whose
item is different, or whose cabinet key is not among the request's keys,
is returned unchanged at its original position, and every row the
operation appends beyond the original table belongs to the updated item
and to a key listed in the request. -/
theorem C10_quantity_frame (items householdCabinets : List String) (itemId : String)
    (legs : List QuantityLeg) (db db' : List QRow)
    (h : update_item_quantity items householdCabinets itemId legs db = Except.ok db') :
    db.length ≤ db'.length ∧
    (∀ (i : Nat) (r : QRow), db[i]? = some r →
      (r.itemId ≠ itemId ∨ r.cabinetId ∉ legs.map (fun l => l.cabinetId)) →
      db'[i]? = some r) ∧
    (∀ (j : Nat) (r' : QRow), db'[j]? = some r' → db.length ≤ j →
      r'.itemId = itemId ∧ r'.cabinetId ∈ legs.map (fun l => l.cabinetId)) := by
  unfold update_item_quantity at h
  cases h0 : (!(items.contains itemId)) with
  | true => rw [h0] at h; cases h
  | false =>
      rw [h0] at h
      simp only [Bool.false_eq_true, if_false] at h
      have hinv := @foldl_quantity_invariant itemId householdCabinets
        (legs.map (fun l => l.cabinetId)) db legs
        (fun leg hmem => List.mem_map.mpr ⟨leg, hmem, rfl⟩)
        (db, []) rfl
        (fun i r' hir => ⟨r', hir, rfl, rfl⟩)
        (fun i r r' hdb hst _ => by rw [hdb] at hst; injection hst with h'; exact h'.symm)
        (fun r' hmem => absurd hmem (List.not_mem_nil r'))
      rcases hinv with ⟨g1, g2, g3, g4⟩
      cases hclash : insertClash (legs.foldl (applyQuantityLeg itemId householdCabinets)
          (db, [])).1 (legs.foldl (applyQuantityLeg itemId householdCabinets) (db, [])).2 with
      | true => rw [hclash] at h; cases h
      | false =>
          rw [hclash] at h
          simp only [Bool.false_eq_true, if_false] at h
          injection h with hdb'
          subst hdb'
          set st := legs.foldl (applyQuantityLeg itemId householdCabinets) (db, []) with hst
          refine ⟨?_, ?_, ?_⟩
          · rw [List.length_append, g1]; omega
          · intro i r hdbi hcond
            have hilen : i < st.1.length := by
              rcases List.getElem?_eq_some.mp hdbi with ⟨hlt, -⟩
              rw [g1]; exact hlt
            rw [List.getElem?_append, if_pos hilen]
            have hsome : st.1[i]? = some (st.1.get ⟨i, hilen⟩) :=
              List.getElem?_eq_getElem hilen
            rw [hsome]
            have := g3 i r (st.1.get ⟨i, hilen⟩) hdbi hsome hcond
            rw [this]
          · intro j r' hj hlen
            rw [List.getElem?_append] at hj
            have hjlen : ¬(j < st.1.length) := by rw [g1]; omega
            rw [if_neg hjlen] at hj
            have hmem : r' ∈ st.2 := List.mem_iff_getElem?.mpr ⟨j - st.1.length, hj⟩
            exact g4 r' hmem

/-- Witness for claim C10 at a concrete request: updating item X's
quantity at cabinet A leaves the row of item Y and X's row at cabinet B
unchanged in place. -/
theorem C10_quantity_frame_witness :
    (3 : Nat) ≤ ([⟨"Y", some "A", 1⟩, ⟨"X", some "B", 7⟩, ⟨"X", some "A", 9⟩] :
        List QRow).length ∧
    ([⟨"Y", some "A", 1⟩, ⟨"X", some "B", 7⟩, ⟨"X", some "A", 9⟩] : List QRow)[0]?
      = some ⟨"Y", some "A", 1⟩ := by
  have h := C10_quantity_frame ["X"] ["A"] "X" [⟨some "A", 2⟩]
    [⟨"Y", some "A", 1⟩, ⟨"X", some "B", 7⟩, ⟨"X", some "A", 9⟩]
    [⟨"Y", some "A", 1⟩, ⟨"X", some "B", 7⟩, ⟨"X", some "A", 2⟩] (by decide)
  refine ⟨?_, ?_⟩
  · exact h.1
  · exact h.2.1 0 ⟨"Y", some "A", 1⟩ (by decide) (by decide)

/-! ### Claim C2, amended -/

theorem toQRow_ofQRow (r : QRow) : SRow.toQRow (SRow.ofQRow r) = r := rfl

/-- Claim C2, amended.  The two write paths treat a zero quantity
differently.  (1) `update_item_quantity` is a pure upsert: when a row for
the requested pair exists it is updated in place to the requested
quantity - also when that quantity is 0, so a zero row is retained rather
than deleted.  (2) The transfer path `update_item_position` does prune: a
non-delete leg that moves the source row's entire quantity deletes the
source row outright, so no row (zero or otherwise) for the source pair
remains after the call. -/
theorem C2_zero_row :
    (∀ (items householdCabinets : List String) (itemId : String)
      (k : Option String) (q : Int) (db : List QRow) (i : Nat) (r : QRow),
      items.contains itemId = true →
      quantityLegKnown householdCabinets ⟨k, q⟩ = true →
      findLastIdx db itemId k = some i → db[i]? = some r →
      update_item_quantity items householdCabinets itemId [⟨k, q⟩] db =
        Except.ok (db.set i { r with quantity := q })) ∧
    (∀ (items householdCabinets : List String) (itemId : String) (a : String)
      (nk : Option String) (q : Int) (db : List QRow) (i : Nat) (r : QRow)
      (rows : List QRow),
      items.contains itemId = true →
      ((namedCabinetIds [⟨some a, nk, q, false⟩]).any
        fun c => !(householdCabinets.contains c)) = false →
      visibleMatches (db.map SRow.ofQRow) itemId (some a) = [i] →
      db[i]? = some r → r.quantity = q → nk ≠ some a →
      visibleMatches ((db.map SRow.ofQRow).set i
        ⟨r.itemId, r.cabinetId, r.quantity, RowStatus.deletedPending⟩) itemId nk = [] →
      update_item_position items householdCabinets itemId
        [⟨some a, nk, q, false⟩] db = Except.ok rows →
      ∀ r' ∈ rows, r'.itemId = itemId →
        matchesCabinetKey (some a) r'.cabinetId = false) := by
  constructor
  · intro items cabs itemId k q db i r hitem hk hf hdb
    unfold update_item_quantity
    rw [hitem]
    simp only [Bool.not_true, Bool.false_eq_true, if_false]
    have hstep : List.foldl (applyQuantityLeg itemId cabs) (db, []) [⟨k, q⟩] =
        (db.set i { r with quantity := q }, []) := by
      simp only [List.foldl_cons, List.foldl_nil]
      unfold applyQuantityLeg
      rw [hk]
      simp only [Bool.not_true, Bool.false_eq_true, if_false]
      rw [hf]
      dsimp only
      rw [hdb]
    rw [hstep]
    have hclash : insertClash (db.set i { r with quantity := q }) [] = false := rfl
    rw [hclash]
    simp
  · intro items cabs itemId a nk q db i r rows hitem hcabs hvm hdb hq hnk hvm2 hrun
    -- unfold the run and identify the committed rows
    unfold update_item_position at hrun
    rw [hitem] at hrun
    simp only [Bool.not_true, Bool.false_eq_true, if_false] at hrun
    rw [hcabs] at hrun
    simp only [Bool.false_eq_true, if_false] at hrun
    -- the validation pass succeeds
    have hs0i : (db.map SRow.ofQRow)[i]? = some (SRow.ofQRow r) := by
      rw [List.getElem?_map, hdb]; rfl
    have hval : validatePositionLegs (db.map SRow.ofQRow) itemId
        [⟨some a, nk, q, false⟩] = Except.ok () := by
      unfold validatePositionLegs validatePositionLegs
      unfold validatePositionLeg
      rw [hvm]
      simp only [scalarOneOrNone, except_bind_ok]
      rw [hs0i]
      dsimp only
      simp only [SRow.ofQRow]
      have hnlt : ¬(r.quantity < q) := by rw [hq]; exact lt_irrefl q
      rw [if_neg hnlt]
      rfl
    rw [hval] at hrun
    simp only [except_bind_ok] at hrun
    -- the apply pass marks the source row deleted and appends the
    -- destination insert
    have happ : applyPositionLegs itemId (db.map SRow.ofQRow)
        [⟨some a, nk, q, false⟩] = Except.ok
          ((db.map SRow.ofQRow).set i
            ⟨r.itemId, r.cabinetId, r.quantity, RowStatus.deletedPending⟩ ++
            [⟨itemId, nk, q, RowStatus.newPending⟩]) := by
      unfold applyPositionLegs applyPositionLegs
      unfold applyPositionLeg
      rw [hvm]
      simp only [scalarOneOrNone, except_bind_ok]
      rw [hs0i]
      dsimp only
      simp only [SRow.ofQRow]
      have hbeq : (r.quantity == q) = true := by rw [hq]; exact beq_self_eq_true q
      rw [hbeq]
      simp only [if_true]
      rw [hvm2]
      simp only [scalarOneOrNone, except_bind_ok]
      rfl
    rw [happ] at hrun
    simp only [except_bind_ok] at hrun
    -- analyze the commit
    unfold commitSession at hrun
    dsimp only at hrun
    split at hrun
    · cases hrun
    · injection hrun with hrows
      subst hrows
      intro r' hr' hrit
      rcases List.mem_map.mp hr' with ⟨sr, hsrmem, hsr⟩
      have hsr' := List.mem_filter.mp hsrmem
      rcases hsr' with ⟨hsrmem2, hsrstat⟩
      rcases List.mem_append.mp hsrmem2 with hsrs1 | hsrnew
      · -- a surviving row of the original table: it is not the deleted
        -- source row, and no other row matches the source key
        rcases List.mem_iff_getElem?.mp hsrs1 with ⟨j, hj⟩
        by_cases hij : i = j
        · subst hij
          have hilen : i < (db.map SRow.ofQRow).length := by
            rcases List.getElem?_eq_some.mp hs0i with ⟨hlt, -⟩
            exact hlt
          rw [List.getElem?_set, if_pos rfl, if_pos hilen] at hj
          injection hj with hj'
          rw [← hj'] at hsrstat
          simp at hsrstat
        · rw [List.getElem?_set_ne hij] at hj
          by_contra hmatch
          simp only [Bool.not_eq_false] at hmatch
          have hjvm : j ∈ visibleMatches (db.map SRow.ofQRow) itemId (some a) := by
            unfold visibleMatches
            refine List.mem_filter.mpr ⟨?_, ?_⟩
            · refine List.mem_range.mpr ?_
              rcases List.getElem?_eq_some.mp hj with ⟨hlt, -⟩
              exact hlt
            · have hstat : (sr.status != RowStatus.newPending) = true := by
                have : sr ∈ db.map SRow.ofQRow := List.mem_iff_getElem?.mpr ⟨j, hj⟩
                rcases List.mem_map.mp this with ⟨r0, -, hr0⟩
                rw [← hr0]
                rfl
              have hsrit : (sr.itemId == itemId) = true := by
                rw [← hsr] at hrit
                simp [SRow.toQRow] at hrit
                simp [hrit]
              have hsrcab : matchesCabinetKey (some a) sr.cabinetId = true := by
                rw [← hsr] at hmatch
                exact hmatch
              rw [hj]
              dsimp only
              rw [hstat, hsrit, hsrcab]
              rfl
          rw [hvm] at hjvm
          exact hij (List.mem_singleton.mp hjvm).symm
      · -- the appended destination row: its key is not the source key
        rcases List.mem_singleton.mp hsrnew with rfl
        rw [← hsr]
        simp only [SRow.toQRow, matchesCabinetKey]
        cases hnkc : nk with
        | none => simp
        | some c =>
            rw [hnkc] at hnk
            simp only [beq_eq_false_iff_ne]
            exact hnk

/-- Witness for the amended claim C2: the upsert part applied at quantity
0 (the zero row `(X, A) ↦ 0` is retained), and the pruning part applied
to the whole-quantity transfer `(A→B, 4)` from `A ↦ 4` (no row for the
source pair remains). -/
theorem C2_zero_row_witness :
    update_item_quantity ["X"] ["A"] "X" [⟨some "A", 0⟩] [⟨"X", some "A", 5⟩] =
      Except.ok ([⟨"X", some "A", 5⟩].set 0 ⟨"X", some "A", 0⟩) ∧
    (∀ r' ∈ [(⟨"X", some "B", 4⟩ : QRow)], QRow.itemId r' = "X" →
      matchesCabinetKey (some "A") r'.cabinetId = false) := by
  constructor
  · exact C2_zero_row.1 ["X"] ["A"] "X" (some "A") 0 [⟨"X", some "A", 5⟩] 0
      ⟨"X", some "A", 5⟩ (by decide) (by decide) (by decide) (by decide)
  · exact C2_zero_row.2 ["X"] ["A", "B"] "X" "A" (some "B") 4
      [⟨"X", some "A", 4⟩] 0 ⟨"X", some "A", 4⟩ [⟨"X", some "B", 4⟩]
      (by decide) (by decide) (by decide) (by decide) (by decide) (by decide)
      (by decide) (by decide)

/-! ### Claim C4, amended -/

theorem map_toQRow_ofQRow (l : List QRow) :
    (l.map SRow.ofQRow).map SRow.toQRow = l := by
  rw [List.map_map]
  exact List.map_id'' (fun r => rfl) l

/-- Claim C4, amended.  A delete-only leg ignores the requested amount:
when a ledger row for the source key exists the whole row is deleted, so
the item's total quantity decreases by the row's full stored quantity
(not by the given amount); when no row exists the leg is a no-op and the
ledger is returned unchanged.  No destination write happens in either
case. -/
theorem C4_delete_only (items householdCabinets : List String) (itemId : String)
    (k nk : Option String) (q : Int) :
    (∀ (l1 l2 : List QRow) (r : QRow),
      items.contains itemId = true →
      ((namedCabinetIds [⟨k, nk, q, true⟩]).any
        fun c => !(householdCabinets.contains c)) = false →
      visibleMatches ((l1 ++ r :: l2).map SRow.ofQRow) itemId k = [l1.length] →
      update_item_position items householdCabinets itemId [⟨k, nk, q, true⟩]
          (l1 ++ r :: l2) = Except.ok (l1 ++ l2) ∧
        totalQuantity (l1 ++ l2) itemId =
          totalQuantity (l1 ++ r :: l2) itemId - r.quantity) ∧
    (∀ db : List QRow,
      items.contains itemId = true →
      ((namedCabinetIds [⟨k, nk, q, true⟩]).any
        fun c => !(householdCabinets.contains c)) = false →
      visibleMatches (db.map SRow.ofQRow) itemId k = [] →
      update_item_position items householdCabinets itemId [⟨k, nk, q, true⟩] db =
        Except.ok db) := by
  constructor
  · intro l1 l2 r hitem hcabs hvm
    have hdbi : (l1 ++ r :: l2)[l1.length]? = some r := by
      rw [List.getElem?_append]
      simp
    have hs0i : ((l1 ++ r :: l2).map SRow.ofQRow)[l1.length]? = some (SRow.ofQRow r) := by
      rw [List.getElem?_map, hdbi]; rfl
    have hmem : l1.length ∈ visibleMatches ((l1 ++ r :: l2).map SRow.ofQRow) itemId k := by
      rw [hvm]; exact List.mem_singleton.mpr rfl
    rcases visibleMatches_mem hmem with ⟨sr, hsr, -, hsrit, -⟩
    rw [hs0i] at hsr
    injection hsr with hsr'
    have hrit : r.itemId = itemId := by rw [← hsr'] at hsrit; exact hsrit
    constructor
    · unfold update_item_position
      rw [hitem]
      simp only [Bool.not_true, Bool.false_eq_true, if_false]
      rw [hcabs]
      simp only [Bool.false_eq_true, if_false]
      have hval : validatePositionLegs ((l1 ++ r :: l2).map SRow.ofQRow) itemId
          [⟨k, nk, q, true⟩] = Except.ok () := by
        unfold validatePositionLegs validatePositionLegs
        unfold validatePositionLeg
        rw [hvm]
        simp only [scalarOneOrNone, except_bind_ok]
        rfl
      rw [hval, except_bind_ok]
      have happ : applyPositionLegs itemId ((l1 ++ r :: l2).map SRow.ofQRow)
          [⟨k, nk, q, true⟩] = Except.ok
            (((l1 ++ r :: l2).map SRow.ofQRow).set l1.length
              ⟨r.itemId, r.cabinetId, r.quantity, RowStatus.deletedPending⟩) := by
        unfold applyPositionLegs applyPositionLegs
        unfold applyPositionLeg
        rw [hvm]
        simp only [scalarOneOrNone, except_bind_ok]
        rw [hs0i]
        rfl
      rw [happ, except_bind_ok]
      -- the session after the apply pass, in explicit append form
      have hsplit : ((l1 ++ r :: l2).map SRow.ofQRow).set l1.length
          ⟨r.itemId, r.cabinetId, r.quantity, RowStatus.deletedPending⟩ =
          l1.map SRow.ofQRow ++
            ⟨r.itemId, r.cabinetId, r.quantity, RowStatus.deletedPending⟩ ::
              l2.map SRow.ofQRow := by
        rw [List.map_append, List.map_cons, List.set_append]
        simp
      rw [hsplit]
      unfold commitSession
      dsimp only
      have hins : ((l1.map SRow.ofQRow ++
          ⟨r.itemId, r.cabinetId, r.quantity, RowStatus.deletedPending⟩ ::
            l2.map SRow.ofQRow).filter
              (fun r => r.status == RowStatus.newPending)) = [] := by
        rw [List.filter_eq_nil_iff]
        intro x hx
        rcases List.mem_append.mp hx with hx1 | hx2
        · rcases List.mem_map.mp hx1 with ⟨r0, -, hr0⟩
          rw [← hr0]; simp [SRow.ofQRow]
        · rcases List.mem_cons.mp hx2 with rfl | hx3
          · simp
          · rcases List.mem_map.mp hx3 with ⟨r0, -, hr0⟩
            rw [← hr0]; simp [SRow.ofQRow]
      rw [hins]
      simp only [List.map_nil, insertClash_nil, Bool.false_eq_true, if_false]
      have hkeep : ((l1.map SRow.ofQRow ++
          ⟨r.itemId, r.cabinetId, r.quantity, RowStatus.deletedPending⟩ ::
            l2.map SRow.ofQRow).filter
              (fun r => r.status != RowStatus.deletedPending)) =
          l1.map SRow.ofQRow ++ l2.map SRow.ofQRow := by
        rw [List.filter_append, List.filter_cons]
        have hd : ((⟨r.itemId, r.cabinetId, r.quantity, RowStatus.deletedPending⟩ :
            SRow).status != RowStatus.deletedPending) = false := rfl
        rw [hd]
        simp only [Bool.false_eq_true, if_false]
        have hk1 : (l1.map SRow.ofQRow).filter
            (fun r => r.status != RowStatus.deletedPending) = l1.map SRow.ofQRow := by
          rw [List.filter_eq_self]
          intro x hx
          rcases List.mem_map.mp hx with ⟨r0, -, hr0⟩
          rw [← hr0]; rfl
        have hk2 : (l2.map SRow.ofQRow).filter
            (fun r => r.status != RowStatus.deletedPending) = l2.map SRow.ofQRow := by
          rw [List.filter_eq_self]
          intro x hx
          rcases List.mem_map.mp hx with ⟨r0, -, hr0⟩
          rw [← hr0]; rfl
        rw [hk1, hk2]
      rw [hkeep]
      have hfin : List.map SRow.toQRow (l1.map SRow.ofQRow ++ l2.map SRow.ofQRow) =
          l1 ++ l2 := by
        rw [List.map_append, map_toQRow_ofQRow, map_toQRow_ofQRow]
      rw [hfin]
    · unfold totalQuantity
      rw [List.filter_append, List.filter_append, List.filter_cons]
      have : (r.itemId == itemId) = true := by simp [hrit]
      rw [this]
      simp only [if_true, List.map_append, List.sum_append, List.map_cons, List.sum_cons]
      ring
  · intro db hitem hcabs hvm
    unfold update_item_position
    rw [hitem]
    simp only [Bool.not_true, Bool.false_eq_true, if_false]
    rw [hcabs]
    simp only [Bool.false_eq_true, if_false]
    have hval : validatePositionLegs (db.map SRow.ofQRow) itemId
        [⟨k, nk, q, true⟩] = Except.ok () := by
      unfold validatePositionLegs validatePositionLegs
      unfold validatePositionLeg
      rw [hvm]
      simp only [scalarOneOrNone, except_bind_ok]
      rfl
    rw [hval, except_bind_ok]
    have happ : applyPositionLegs itemId (db.map SRow.ofQRow) [⟨k, nk, q, true⟩] =
        Except.ok (db.map SRow.ofQRow) := by
      unfold applyPositionLegs applyPositionLegs
      unfold applyPositionLeg
      rw [hvm]
      simp only [scalarOneOrNone, except_bind_ok]
      rfl
    rw [happ, except_bind_ok]
    unfold commitSession
    have hall : ∀ x ∈ db.map SRow.ofQRow, x.status = RowStatus.persistent := by
      intro x hx
      rcases List.mem_map.mp hx with ⟨r0, -, hr0⟩
      rw [← hr0]; rfl
    have hins : ((db.map SRow.ofQRow).filter
        (fun r => r.status == RowStatus.newPending)) = [] := by
      rw [List.filter_eq_nil_iff]
      intro x hx
      rw [hall x hx]; simp
    have hkeep : ((db.map SRow.ofQRow).filter
        (fun r => r.status != RowStatus.deletedPending)) = db.map SRow.ofQRow := by
      rw [List.filter_eq_self]
      intro x hx
      rw [hall x hx]; rfl
    rw [hins, hkeep]
    simp only [List.map_nil, insertClash_nil, Bool.false_eq_true, if_false]
    rw [map_toQRow_ofQRow]

/-- Witness for the amended claim C4: deleting item X's stock at cabinet
A (row quantity 5) with requested amount 2 removes the whole row, the
total dropping by 5; the same leg on an empty ledger is a no-op. -/
theorem C4_delete_only_witness :
    (update_item_position ["X"] ["A"] "X" [⟨some "A", none, 2, true⟩]
        ([] ++ ⟨"X", some "A", 5⟩ :: []) = Except.ok ([] ++ []) ∧
      totalQuantity ([] ++ []) "X" =
        totalQuantity ([] ++ ⟨"X", some "A", 5⟩ :: []) "X" - 5) ∧
    update_item_position ["X"] ["A"] "X" [⟨some "A", none, 2, true⟩] [] =
      Except.ok [] :=
  ⟨(C4_delete_only ["X"] ["A"] "X" (some "A") none 2).1 [] []
      ⟨"X", some "A", 5⟩ (by decide) (by decide) (by decide),
    (C4_delete_only ["X"] ["A"] "X" (some "A") none 2).2 []
      (by decide) (by decide) (by decide)⟩

/-! ### Claim C9, amended -/

theorem applyQuantityLeg_skip {itemId : String} {householdCabinets : List String}
    {st : List QRow × List QRow} {leg : QuantityLeg}
    (h : quantityLegKnown householdCabinets leg = false) :
    applyQuantityLeg itemId householdCabinets st leg = st := by
  unfold applyQuantityLeg
  rw [h]
  rfl

theorem foldl_quantityLegs_filter (itemId : String) (householdCabinets : List String)
    (legs : List QuantityLeg) (st : List QRow × List QRow) :
    legs.foldl (applyQuantityLeg itemId householdCabinets) st =
      (legs.filter (quantityLegKnown householdCabinets)).foldl
        (applyQuantityLeg itemId householdCabinets) st := by
  induction legs generalizing st with
  | nil => rfl
  | cons head rest ih =>
      cases hk : quantityLegKnown householdCabinets head with
      | true => simp only [List.foldl_cons, List.filter_cons, hk, if_true]; exact ih _
      | false =>
          simp only [List.foldl_cons, List.filter_cons, hk]
          rw [applyQuantityLeg_skip hk]
          exact ih st

/-- Claim C9, amended.  The two ledger operations treat an unknown
location differently: `update_item_position` rejects the whole request
with the path-invalid error as soon as any leg names a cabinet id that
does not belong to the household (no mutation occurs), whereas
`update_item_quantity` silently skips every leg naming an unknown cabinet
and applies the remaining legs - the call behaves exactly as if the
unknown-location legs had been removed from the request. -/
theorem C9_unknown_location (items householdCabinets : List String) (itemId : String) :
    (∀ (legs : List PositionLeg) (db : List QRow),
      (∃ c ∈ namedCabinetIds legs, householdCabinets.contains c = false) →
      update_item_position items householdCabinets itemId legs db =
        Except.error Err.requestPathInvalid) ∧
    (∀ (legs : List QuantityLeg) (db : List QRow),
      update_item_quantity items householdCabinets itemId legs db =
        update_item_quantity items householdCabinets itemId
          (legs.filter (quantityLegKnown householdCabinets)) db) := by
  constructor
  · intro legs db h
    unfold update_item_position
    cases h1 : (!(items.contains itemId)) with
    | true => rfl
    | false =>
        have h2 : ((namedCabinetIds legs).any fun c => !(householdCabinets.contains c))
            = true := by
          rcases h with ⟨c, hc, hcf⟩
          exact List.any_eq_true.mpr ⟨c, hc, by rw [hcf]; rfl⟩
        rw [h2]
        rfl
  · intro legs db
    unfold update_item_quantity
    rw [foldl_quantityLegs_filter]

/-- Witness for the amended claim C9: a request naming the unknown
cabinet `B` makes `update_item_position` fail with the path-invalid
error, while `update_item_quantity` treats the same request exactly as
the request with the unknown-location leg removed. -/
theorem C9_unknown_location_witness :
    update_item_position ["X"] ["A"] "X" [⟨some "B", some "A", 1, false⟩]
        [⟨"X", some "A", 5⟩] = Except.error Err.requestPathInvalid ∧
    update_item_quantity ["X"] ["A"] "X" [⟨some "B", 7⟩, ⟨some "A", 2⟩]
        [⟨"X", some "A", 5⟩] =
      update_item_quantity ["X"] ["A"] "X"
        ([⟨some "B", 7⟩, ⟨some "A", 2⟩].filter (quantityLegKnown ["A"]))
        [⟨"X", some "A", 5⟩] :=
  ⟨(C9_unknown_location ["X"] ["A"] "X").1 [⟨some "B", some "A", 1, false⟩]
      [⟨"X", some "A", 5⟩] ⟨"B", by decide, by decide⟩,
    (C9_unknown_location ["X"] ["A"] "X").2 [⟨some "B", 7⟩, ⟨some "A", 2⟩]
      [⟨"X", some "A", 5⟩]⟩

/-! ### Category well-formedness and descendant enumeration lemmas -/

theorem catwf_ids_nodup {db : List Category} (h : CatWF db) :
    (db.map (fun c => c.id)).Nodup := h.1

theorem catwf_id_inj {db : List Category} (h : CatWF db) {a b : Category}
    (ha : a ∈ db) (hb : b ∈ db) (hab : a.id = b.id) : a = b :=
  List.inj_on_of_nodup_map h.1 ha hb hab

/-- Under distinct ids, a filter whose predicate pins the id down to that
of a member row returns exactly that row. -/
theorem filter_eq_singleton_of_nodup_ids {db : List Category}
    (hnd : (db.map (fun c => c.id)).Nodup) {c : Category} (hc : c ∈ db)
    {p : Category → Bool} (hpc : p c = true)
    (hp : ∀ x, p x = true → x.id = c.id) : db.filter p = [c] := by
  induction db with
  | nil => cases hc
  | cons d rest ih =>
      rw [List.map_cons, List.nodup_cons] at hnd
      rcases hnd with ⟨hdnotin, hndrest⟩
      cases hpd : p d with
      | true =>
          have hdc : d.id = c.id := hp d hpd
          rcases List.mem_cons.mp hc with rfl | hcrest
          · rw [List.filter_cons, hpd]
            simp only [if_true]
            have hrest : rest.filter p = [] := by
              rw [List.filter_eq_nil_iff]
              intro x hx hpx
              exact hdnotin (by
                rw [← hp x hpx]
                exact List.mem_map.mpr ⟨x, hx, rfl⟩)
            rw [hrest]
          · exact absurd (by rw [hdc]; exact List.mem_map.mpr ⟨c, hcrest, rfl⟩) hdnotin
      | false =>
          have hdc : d ≠ c := fun hdc => by rw [hdc] at hpd; rw [hpd] at hpc; cases hpc
          rcases List.mem_cons.mp hc with rfl | hcrest
          · exact absurd rfl hdc
          · rw [List.filter_cons, hpd]
            simp only [Bool.false_eq_true, if_false]
            exact ih hndrest hcrest

theorem category_by_id_eq {db : List Category} (h : CatWF db) {q : Category}
    (hq : q ∈ db) : category_by_id db q.id = Except.ok (some q) := by
  unfold category_by_id
  rw [filter_eq_singleton_of_nodup_ids h.1 hq (by simp)
    (fun x hx => by simpa using hx)]
  rfl

theorem isDescendant_trans_aux {db : List Category} {b y : String}
    (h1 : IsDescendant db b y) :
    ∀ a : String, IsDescendant db a b → IsDescendant db a y := by
  induction h1 with
  | child c hc hp => exact fun a h2 => IsDescendant.step c hc hp h2
  | step c hc hp hd ih => exact fun a h2 => IsDescendant.step c hc hp (ih a h2)

theorem isDescendant_trans {db : List Category} {a b y : String}
    (h1 : IsDescendant db b y) (h2 : IsDescendant db a b) :
    IsDescendant db a y := isDescendant_trans_aux h1 a h2

/-- Every strict descendant is reached through some direct child. -/
theorem isDescendant_decomp {db : List Category} {a y : String}
    (h : IsDescendant db a y) :
    ∃ c ∈ db, c.parentId = some a ∧ (c.id = y ∨ IsDescendant db c.id y) := by
  induction h with
  | child c hc hp => exact ⟨c, hc, hp, Or.inl rfl⟩
  | step c hc hp hd ih =>
      rcases ih with ⟨c0, hc0, hp0, hcase⟩
      refine ⟨c0, hc0, hp0, Or.inr ?_⟩
      rcases hcase with rfl | hdesc
      · exact IsDescendant.child c hc hp
      · exact IsDescendant.step c hc hp hdesc

theorem isDescendant_row {db : List Category} {a y : String}
    (h : IsDescendant db a y) : ∃ c ∈ db, c.id = y := by
  cases h with
  | child c hc hp => exact ⟨c, hc, rfl⟩
  | step c hc hp hd => exact ⟨c, hc, rfl⟩

/-- Under the level invariants, a strict descendant's stored level is
strictly above its ancestor's. -/
theorem isDescendant_level_lt {db : List Category} (hwf : CatWF db) {a y : String}
    (h : IsDescendant db a y) :
    ∀ qa ∈ db, qa.id = a → ∀ qy ∈ db, qy.id = y → qa.level < qy.level := by
  induction h with
  | child c hc hp =>
      intro qa hqa hqaid qy hqy hqyid
      have hcy : qy = c := catwf_id_inj hwf hqy hc hqyid
      subst hcy
      have : qy.level = qa.level + 1 := hwf.2.2.2.1 qy hqy qa hqa (by rw [hp, hqaid])
      omega
  | step c hc hp hd ih =>
      intro qa hqa hqaid qy hqy hqyid
      have hcy : qy = c := catwf_id_inj hwf hqy hc hqyid
      subst hcy
      rcases hwf.2.2.2.2 qy hqy with hnone | ⟨qp, hqp, hqpid⟩
      · rw [hnone] at hp; cases hp
      · rw [hqpid] at hp
        injection hp with hp'
        have h1 : qa.level < qp.level := ih qa hqa hqaid qp hqp hp'
        have h2 : qy.level = qp.level + 1 := hwf.2.2.2.1 qy hqy qp hqp hqpid
        omega

theorem get_children_ids_sound {db : List Category} :
    ∀ (fuel : Nat) (x y : String), y ∈ get_children_ids db fuel x →
      y = x ∨ IsDescendant db x y := by
  intro fuel
  induction fuel with
  | zero => intro x y hy; cases hy
  | succ f ih =>
      intro x y hy
      unfold get_children_ids at hy
      rcases List.mem_cons.mp hy with rfl | hy'
      · exact Or.inl rfl
      · rcases List.mem_flatMap.mp hy' with ⟨cid, hcid, hyc⟩
        rcases List.mem_map.mp hcid with ⟨c, hc, rfl⟩
        have hcdb : c ∈ db := List.mem_of_mem_filter hc
        have hcp : c.parentId = some x := by
          have := List.of_mem_filter hc
          simpa using this
        rcases ih c.id y hyc with rfl | hdesc
        · exact Or.inr (IsDescendant.child c hcdb hcp)
        · exact Or.inr (isDescendant_trans hdesc (IsDescendant.child c hcdb hcp))

theorem get_children_ids_complete {db : List Category} (hwf : CatWF db) :
    ∀ (fuel : Nat) (x d : Category), x ∈ db → d ∈ db →
      IsDescendant db x.id d.id → (d.level - x.level).toNat < fuel →
      d.id ∈ get_children_ids db fuel x.id := by
  intro fuel
  induction fuel with
  | zero => intro x d hx hd hdesc hfuel; omega
  | succ f ih =>
      intro x d hx hd hdesc hfuel
      rcases isDescendant_decomp hdesc with ⟨c, hc, hcp, hcase⟩
      have hclevel : c.level = x.level + 1 := hwf.2.2.2.1 c hc x hx hcp
      have hcchild : c ∈ children_of db x.id := by
        unfold children_of
        refine List.mem_filter.mpr ⟨hc, by simp [hcp]⟩
      unfold get_children_ids
      refine List.mem_cons.mpr (Or.inr ?_)
      refine List.mem_flatMap.mpr ⟨c.id, List.mem_map.mpr ⟨c, hcchild, rfl⟩, ?_⟩
      rcases hcase with hcd | hdesc'
      · -- d is the direct child c itself
        have : c = d := by
          rcases isDescendant_row hdesc with ⟨d0, hd0, hd0id⟩
          exact catwf_id_inj hwf hc hd hcd
        subst this
        cases f with
        | zero =>
            exfalso
            have := isDescendant_level_lt hwf hdesc x hx rfl c hc rfl
            omega
        | succ f' =>
            unfold get_children_ids
            exact List.mem_cons.mpr (Or.inl rfl)
      · -- d sits deeper inside c's subtree
        have hlt : (d.level - c.level).toNat < f := by
          have h1 := isDescendant_level_lt hwf hdesc' c hc rfl d hd rfl
          have h2 := isDescendant_level_lt hwf hdesc x hx rfl d hd rfl
          omega
        exact ih c d hc hd hdesc' hlt

/-- The update-service descendant enumeration is the delete-service
enumeration applied to each direct child. -/
theorem collect_descendant_ids_eq {db : List Category} :
    ∀ (fuel : Nat) (x : String),
      collect_descendant_ids db fuel x =
        (children_of db x).flatMap (fun c => get_children_ids db fuel c.id) := by
  intro fuel
  induction fuel with
  | zero =>
      intro x
      unfold collect_descendant_ids
      unfold get_children_ids
      simp
  | succ f ih =>
      intro x
      unfold collect_descendant_ids
      simp only [List.flatMap_map, Function.comp]
      have hfun : (fun (c : Category) => c.id :: collect_descendant_ids db f c.id) =
          (fun (c : Category) => get_children_ids db (f + 1) c.id) := by
        funext c
        unfold get_children_ids
        rw [ih c.id]
        simp only [List.flatMap_map, Function.comp]
      rw [hfun]

theorem collect_descendant_ids_sound {db : List Category} {fuel : Nat}
    {x y : String} (hy : y ∈ collect_descendant_ids db fuel x) :
    IsDescendant db x y := by
  rw [collect_descendant_ids_eq] at hy
  rcases List.mem_flatMap.mp hy with ⟨c, hc, hyc⟩
  have hcdb : c ∈ db := List.mem_of_mem_filter hc
  have hcp : c.parentId = some x := by
    have := List.of_mem_filter hc
    simpa [children_of] using this
  rcases get_children_ids_sound fuel c.id y hyc with rfl | hdesc
  · exact IsDescendant.child c hcdb hcp
  · exact isDescendant_trans hdesc (IsDescendant.child c hcdb hcp)

theorem collect_descendant_ids_complete {db : List Category} (hwf : CatWF db)
    {fuel : Nat} {x d : Category} (hx : x ∈ db) (hd : d ∈ db)
    (hdesc : IsDescendant db x.id d.id)
    (hfuel : (d.level - x.level).toNat < fuel) :
    d.id ∈ collect_descendant_ids db fuel x.id := by
  rw [collect_descendant_ids_eq]
  rcases isDescendant_decomp hdesc with ⟨c, hc, hcp, hcase⟩
  have hcchild : c ∈ children_of db x.id := by
    unfold children_of
    exact List.mem_filter.mpr ⟨hc, by simp [hcp]⟩
  refine List.mem_flatMap.mpr ⟨c, hcchild, ?_⟩
  rcases hcase with hcd | hdesc'
  · cases fuel with
    | zero => omega
    | succ f =>
        unfold get_children_ids
        exact List.mem_cons.mpr (Or.inl (hcd.symm))
  · have hclevel : c.level = x.level + 1 := hwf.2.2.2.1 c hc x hx hcp
    have hlt : (d.level - c.level).toNat < fuel := by
      have h1 := isDescendant_level_lt hwf hdesc' c hc rfl d hd rfl
      have h2 := isDescendant_level_lt hwf hdesc x hx rfl d hd rfl
      omega
    exact get_children_ids_complete hwf fuel c d hc hd hdesc' hlt

/-- On well-formed data the ancestor-name walk succeeds and returns one
name per ancestor level: the path of a category of level `n` has exactly
`n` names.  The `visited` invariant states that everything already
visited lies strictly below the current node, which rules the
cycle-detection error out. -/
theorem get_level_names_aux_ok {db : List Category} (hwf : CatWF db) :
    ∀ (fuel : Nat) (visited : List String) (c : Category), c ∈ db →
      c.level.toNat ≤ fuel →
      (∀ v ∈ visited, ∀ qv ∈ db, qv.id = v → c.level < qv.level) →
      ∃ names, get_level_names_aux db fuel visited c = Except.ok names ∧
        names.length = c.level.toNat := by
  intro fuel
  induction fuel with
  | zero =>
      intro visited c hc hfuel hvis
      have := (hwf.2.1 c hc).1
      omega
  | succ f ih =>
      intro visited c hc hfuel hvis
      unfold get_level_names_aux
      have hnotvis : visited.contains c.id = false := by
        cases hcon : visited.contains c.id with
        | false => rfl
        | true =>
            have hmem := List.mem_of_elem_eq_true hcon
            have := hvis c.id hmem c hc rfl
            omega
      rw [hnotvis]
      simp only [Bool.false_eq_true, if_false]
      cases hp : c.parentId with
      | none =>
          refine ⟨[c.name], rfl, ?_⟩
          have := hwf.2.2.1 c hc hp
          simp [this]
      | some pid =>
          rcases hwf.2.2.2.2 c hc with hnone | ⟨q, hq, hqid⟩
          · rw [hnone] at hp; cases hp
          · rw [hqid] at hp
            injection hp with hp'
            subst hp'
            have hcbi : category_by_id db q.id = Except.ok (some q) :=
              category_by_id_eq hwf hq
            dsimp only
            rw [hcbi]
            simp only [except_bind_ok]
            have hlev : c.level = q.level + 1 := hwf.2.2.2.1 c hc q hq hqid
            have hqlb := (hwf.2.1 q hq).1
            have hinv : ∀ v ∈ (c.id :: visited), ∀ qv ∈ db, qv.id = v →
                q.level < qv.level := by
              intro v hv qv hqv hqvid
              rcases List.mem_cons.mp hv with rfl | hvold
              · have : qv = c := catwf_id_inj hwf hqv hc hqvid
                subst this
                omega
              · have := hvis v hvold qv hqv hqvid
                omega
            rcases ih (c.id :: visited) q hq (by omega) hinv with ⟨rest, hrest, hlen⟩
            rw [hrest]
            simp only [except_bind_ok]
            refine ⟨rest ++ [c.name], rfl, ?_⟩
            rw [List.length_append, hlen]
            simp only [List.length_singleton]
            omega

theorem get_level_names_ok {db : List Category} (hwf : CatWF db) {q : Category}
    (hq : q ∈ db) :
    ∃ names, get_level_names db (some q.id) = Except.ok names ∧
      names.length = q.level.toNat := by
  unfold get_level_names
  dsimp only
  rw [category_by_id_eq hwf hq]
  simp only [except_bind_ok]
  apply get_level_names_aux_ok hwf (db.length + 4) [] q hq
  · have := (hwf.2.1 q hq).2
    omega
  · intro v hv
    cases hv

theorem foldl_max_ge_init (l : List Nat) (a : Nat) : a ≤ l.foldl max a := by
  induction l generalizing a with
  | nil => exact Nat.le_refl a
  | cons x xs ih => exact Nat.le_trans (Nat.le_max_left a x) (ih (max a x))

theorem foldl_max_ge_mem (l : List Nat) (a : Nat) :
    ∀ x ∈ l, x ≤ l.foldl max a := by
  induction l generalizing a with
  | nil => intro x hx; cases hx
  | cons y ys ih =>
      intro x hx
      rcases List.mem_cons.mp hx with rfl | hxs
      · exact Nat.le_trans (Nat.le_max_right a x) (foldl_max_ge_init ys (max a x))
      · exact ih (max a y) x hxs

/-- The capped depth count never undershoots the (capped) starting
level. -/
theorem check_ge_self (db : List Category) :
    ∀ (fuel : Nat) (cid : String) (cur : Nat),
      min MAX_LEVEL_NUM cur ≤ check_children_level_aux db fuel cid cur := by
  intro fuel
  induction fuel with
  | zero =>
      intro cid cur
      unfold check_children_level_aux
      exact Nat.min_le_left _ _
  | succ f ih =>
      intro cid cur
      unfold check_children_level_aux
      by_cases h3 : MAX_LEVEL_NUM ≤ cur
      · rw [if_pos h3]
        exact Nat.min_le_left _ _
      · rw [if_neg h3]
        dsimp only
        cases hemp : ((children_of db cid).map (fun c => c.id)).isEmpty with
        | true =>
            simp only [if_true]
            exact Nat.min_le_right _ _
        | false =>
            simp only [Bool.false_eq_true, if_false]
            exact Nat.le_trans (Nat.min_le_right _ _) (foldl_max_ge_init _ _)

/-- A descendant chain of relative depth `n` pushes the capped depth count
to at least `min 3 (cur + n)`, whatever the fuel: the fuel-exhausted
answer is the cap itself. -/
theorem check_chain_lb {db : List Category} (hwf : CatWF db) :
    ∀ (n : Nat) (x d : Category), x ∈ db → d ∈ db →
      IsDescendant db x.id d.id → (d.level - x.level).toNat = n →
      ∀ (fuel cur : Nat),
        min MAX_LEVEL_NUM (cur + n) ≤ check_children_level_aux db fuel x.id cur := by
  intro n
  induction n using Nat.strong_induction_on with
  | _ n ihn =>
      intro x d hx hd hdesc hn fuel cur
      cases fuel with
      | zero =>
          unfold check_children_level_aux
          exact Nat.min_le_left _ _
      | succ f =>
          unfold check_children_level_aux
          by_cases h3 : MAX_LEVEL_NUM ≤ cur
          · rw [if_pos h3]
            exact Nat.min_le_left _ _
          · rw [if_neg h3]
            dsimp only
            rcases isDescendant_decomp hdesc with ⟨c, hc, hcp, hcase⟩
            have hcchild : c ∈ children_of db x.id := by
              unfold children_of
              exact List.mem_filter.mpr ⟨hc, by simp [hcp]⟩
            have hclevel : c.level = x.level + 1 := hwf.2.2.2.1 c hc x hx hcp
            have hne : (children_of db x.id).map (fun c => c.id) ≠ [] := by
              intro h0
              have hmm : c.id ∈ (children_of db x.id).map (fun c => c.id) :=
                List.mem_map.mpr ⟨c, hcchild, rfl⟩
              rw [h0] at hmm
              cases hmm
            have hemp : ((children_of db x.id).map (fun c => c.id)).isEmpty = false := by
              cases hl : (children_of db x.id).map (fun c => c.id) with
              | nil => exact absurd hl hne
              | cons y ys => rfl
            rw [hemp]
            simp only [Bool.false_eq_true, if_false]
            have hmemval : check_children_level_aux db f c.id (cur + 1) ∈
                ((children_of db x.id).map (fun c => c.id)).map
                  (fun cc => check_children_level_aux db f cc (cur + 1)) := by
              refine List.mem_map.mpr ⟨c.id, List.mem_map.mpr ⟨c, hcchild, rfl⟩, rfl⟩
            have hfold := foldl_max_ge_mem _ cur _ hmemval
            rcases hcase with hcd | hdesc'
            · -- decomposition hit d itself: the chain has depth 1
              have hcd' : c = d := catwf_id_inj hwf hc hd hcd
              subst hcd'
              have hn1 : n = 1 := by
                have := (hwf.2.1 x hx).1
                omega
              subst hn1
              have := check_ge_self db f c.id (cur + 1)
              have hmin : min MAX_LEVEL_NUM (cur + 1) ≤
                  check_children_level_aux db f c.id (cur + 1) := this
              exact Nat.le_trans hmin hfold
            · -- d lies deeper: use the inner chain of depth n - 1
              have hdx := isDescendant_level_lt hwf hdesc x hx rfl d hd rfl
              have hdc := isDescendant_level_lt hwf hdesc' c hc rfl d hd rfl
              have hxlb := (hwf.2.1 x hx).1
              have hn' : (d.level - c.level).toNat = n - 1 := by omega
              have hnge : 1 ≤ n := by omega
              have := ihn (n - 1) (by omega) c d hc hd hdesc' hn' f (cur + 1)
              have harith : cur + 1 + (n - 1) = cur + n := by omega
              rw [harith] at this
              exact Nat.le_trans this hfold

/-! ### Claim C6 -/

/-- Claim C6, confirmed.  Consider a reparent request moving category
`cat` under an existing category `P` (no rename, no self/descendant
cycle), on a well-formed table where stored levels agree with depth.  If
any node of `cat`'s subtree - `cat` itself or any strict descendant -
would land outside the 3-level bound at its hypothetical new level
`level + levelDiff` (with `levelDiff = (P.level + 1) - cat.level`), then
`update_category` rejects the whole operation with the
parameters-invalid error *before any mutation*: the error propagates to
the router, which rolls the transaction back, so the category and every
descendant retain their original parent and level. -/
theorem C6_reparent_level_validation
    (req : UpdateCategoryRequest) (db : List Category) (cat P : Category)
    (hwf : CatWF db)
    (hcat : cat ∈ db) (hcatid : cat.id = req.categoryId)
    (hcathh : cat.householdId = req.householdId)
    (hname : req.name = none)
    (hP : P ∈ db) (hreqp : req.parentId = some P.id)
    (hPne : P.id ≠ "")
    (hPnc : P.id ≠ req.categoryId)
    (hnodesc : ¬IsDescendant db cat.id P.id)
    (hbad : ∃ d : Category, (d = cat ∨ (d ∈ db ∧ IsDescendant db cat.id d.id)) ∧
      (3 : Int) < d.level + (P.level + 1 - cat.level)) :
    update_category req db = Except.error Err.requestParametersInvalid := by
  unfold update_category
  have hfind : db.filter (fun c => c.id == req.categoryId &&
      c.householdId == req.householdId) = [cat] := by
    refine filter_eq_singleton_of_nodup_ids hwf.1 hcat ?_ ?_
    · simp [hcatid, hcathh]
    · intro x hx
      have hx1 : (x.id == req.categoryId) = true := by
        cases h1 : (x.id == req.categoryId) with
        | true => rfl
        | false => rw [h1, Bool.false_and] at hx; cases hx
      have hx2 : x.id = req.categoryId := by simpa using hx1
      rw [hx2, hcatid]
  rw [hfind]
  simp only [scalarOneOrNone, except_bind_ok]
  have hold : ∃ v, get_level_names db cat.parentId = Except.ok v := by
    cases hp : cat.parentId with
    | none => exact ⟨[], rfl⟩
    | some op =>
        rcases hwf.2.2.2.2 cat hcat with hnone | ⟨q, hq, hqid⟩
        · rw [hnone] at hp; cases hp
        · rw [hqid] at hp
          injection hp with hp'
          subst hp'
          rcases get_level_names_ok hwf hq with ⟨names, hnames, -⟩
          exact ⟨names, hnames⟩
  rcases hold with ⟨oldv, holdv⟩
  rw [holdv]
  simp only [except_bind_ok]
  rw [hname]
  simp only [except_bind_ok]
  rw [hreqp]
  dsimp only
  have hPne' : (P.id == "") = false := by
    cases h : (P.id == "") with
    | false => rfl
    | true => exact absurd (by simpa using h) hPne
  rw [hPne']
  simp only [Bool.false_and, Bool.false_eq_true, if_false]
  unfold str_to_uuid?
  rw [hPne']
  simp only [Bool.false_eq_true, if_false]
  have hPnc' : (P.id == req.categoryId) = false := by
    cases h : (P.id == req.categoryId) with
    | false => rfl
    | true => exact absurd (by simpa using h) hPnc
  rw [hPnc']
  simp only [Bool.false_eq_true, if_false]
  have hcont : (collect_descendant_ids db (db.length + 4) cat.id).contains P.id
      = false := by
    cases hcon : (collect_descendant_ids db (db.length + 4) cat.id).contains P.id with
    | false => rfl
    | true =>
        have hmem := List.mem_of_elem_eq_true hcon
        exact absurd (collect_descendant_ids_sound hmem) hnodesc
  rw [hcont]
  simp only [Bool.false_eq_true, if_false]
  rcases get_level_names_ok hwf hP with ⟨names, hnames, hnameslen⟩
  rw [hnames]
  simp only [except_bind_ok]
  unfold get_children_max_level_num
  have hcbi : category_by_id db cat.id = Except.ok (some cat) :=
    category_by_id_eq hwf hcat
  rw [hcbi]
  simp only [except_bind_ok]
  have hcond : MAX_LEVEL_NUM < check_children_level_recursive db cat.id 1 +
      names.length := by
    rw [hnameslen]
    have hPlb := (hwf.2.1 P hP).1
    have hPub := (hwf.2.1 P hP).2
    have hclb := (hwf.2.1 cat hcat).1
    rcases hbad with ⟨d, hdcase, hdlvl⟩
    have hself := check_ge_self db MAX_LEVEL_NUM cat.id 1
    rcases hdcase with rfl | ⟨hd, hdesc⟩
    · -- the category itself exceeds the bound: the new parent is at level 3
      have hmin1 : min MAX_LEVEL_NUM 1 = 1 := by
        unfold MAX_LEVEL_NUM
        omega
      rw [hmin1] at hself
      unfold check_children_level_recursive
      unfold MAX_LEVEL_NUM at hself ⊢
      omega
    · -- a strict descendant exceeds the bound
      have hdlt := isDescendant_level_lt hwf hdesc cat hcat rfl d hd rfl
      have hdub := (hwf.2.1 d hd).2
      have hchain := check_chain_lb hwf (d.level - cat.level).toNat cat d hcat hd
        hdesc rfl MAX_LEVEL_NUM 1
      unfold check_children_level_recursive
      by_cases hsmall : 1 + (d.level - cat.level).toNat ≤ MAX_LEVEL_NUM
      · rw [Nat.min_eq_right hsmall] at hchain
        unfold MAX_LEVEL_NUM at hchain ⊢
        omega
      · rw [Nat.min_eq_left (by omega)] at hchain
        unfold MAX_LEVEL_NUM at hchain ⊢
        omega
  rw [if_pos hcond]

/-- Witness for claim C6 at the spec's own scenario 3: reparenting
"Utensils" (level 2, child of root "Kitchen", with child "Forks" at
level 3) under the level-2 category "NewParent" is rejected, because
"Forks" would land at level 4. -/
theorem C6_reparent_level_validation_witness :
    update_category ⟨"h", "u", none, some "n"⟩
        [⟨"k", "h", "Kitchen", none, 1⟩, ⟨"u", "h", "Utensils", some "k", 2⟩,
         ⟨"f", "h", "Forks", some "u", 3⟩, ⟨"r", "h", "Room", none, 1⟩,
         ⟨"n", "h", "NewParent", some "r", 2⟩]
      = Except.error Err.requestParametersInvalid := by
  have hforks : IsDescendant
      [⟨"k", "h", "Kitchen", none, 1⟩, ⟨"u", "h", "Utensils", some "k", 2⟩,
       ⟨"f", "h", "Forks", some "u", 3⟩, ⟨"r", "h", "Room", none, 1⟩,
       ⟨"n", "h", "NewParent", some "r", 2⟩] "u" "f" :=
    IsDescendant.child ⟨"f", "h", "Forks", some "u", 3⟩ (by decide) rfl
  refine C6_reparent_level_validation ⟨"h", "u", none, some "n"⟩ _
    ⟨"u", "h", "Utensils", some "k", 2⟩ ⟨"n", "h", "NewParent", some "r", 2⟩
    (by decide) (by decide) rfl rfl rfl (by decide) rfl (by decide) (by decide)
    ?_ ?_
  · intro hdesc
    have hrow : ∃ c ∈ [(⟨"k", "h", "Kitchen", none, 1⟩ : Category),
        ⟨"u", "h", "Utensils", some "k", 2⟩, ⟨"f", "h", "Forks", some "u", 3⟩,
        ⟨"r", "h", "Room", none, 1⟩, ⟨"n", "h", "NewParent", some "r", 2⟩],
        c.id = "n" := isDescendant_row hdesc
    rcases hrow with ⟨c, hc, hcid⟩
    have hcn : c = ⟨"n", "h", "NewParent", some "r", 2⟩ := by
      fin_cases hc <;> first | rfl | (exfalso; revert hcid; decide)
    subst hcn
    have hmem := @collect_descendant_ids_complete [⟨"k", "h", "Kitchen", none, 1⟩,
      ⟨"u", "h", "Utensils", some "k", 2⟩, ⟨"f", "h", "Forks", some "u", 3⟩,
      ⟨"r", "h", "Room", none, 1⟩, ⟨"n", "h", "NewParent", some "r", 2⟩]
      (by decide) 9 ⟨"u", "h", "Utensils", some "k", 2⟩
      ⟨"n", "h", "NewParent", some "r", 2⟩
      (by decide) (by decide) hdesc (by decide)
    revert hmem
    decide
  · exact ⟨⟨"f", "h", "Forks", some "u", 3⟩, Or.inr ⟨by decide, hforks⟩, by decide⟩

/-! ### Claim C7 -/

theorem get_children_ids_head (db : List Category) (fuel : Nat) (x : String) :
    x ∈ get_children_ids db (fuel + 1) x := by
  unfold get_children_ids
  exact List.mem_cons_self x _

/-- Membership in the post-delete category table: exactly the rows of the
original table whose id is not in the enumerated delete set survive. -/
theorem filter_del_spec (db : List Category) (ids : List String) (c : Category) :
    c ∈ db.filter (fun x => !(ids.contains x.id)) ↔ c ∈ db ∧ c.id ∉ ids := by
  constructor
  · intro hc
    have h := List.mem_filter.mp hc
    refine ⟨h.1, fun hmem => ?_⟩
    have h2 : (!(ids.contains c.id)) = true := h.2
    have hc3 : ids.contains c.id = true := List.elem_eq_true_of_mem hmem
    rw [hc3] at h2
    simp at h2
  · rintro ⟨h1, h2⟩
    refine List.mem_filter.mpr ⟨h1, ?_⟩
    show (!(ids.contains c.id)) = true
    cases hc : ids.contains c.id with
    | false => rfl
    | true => exact absurd (List.mem_of_elem_eq_true hc) h2

/-- Claim C7, confirmed.  Deleting an existing category of the household
removes, in one batch, exactly the category itself and its transitive
descendants: every surviving row is neither the target nor one of its
descendants, every non-descendant row survives, and no surviving row's
parent reference points at a removed row (no orphans).  Exactly one
delete record is emitted, carrying the deleted category's name.  The item
table keeps every row (same length, same id and household per position);
an item's category reference is either kept or cleared to `none`
(`ondelete="SET NULL"`), and after the call no item references the
deleted category or any of its descendants. -/
theorem C7_cascade_delete
    (req : DeleteCategoryRequest) (db : List Category) (items : List ItemRow)
    (cat : Category) (hwf : CatWF db) (hcat : cat ∈ db)
    (hcatid : cat.id = req.categoryId)
    (hcathh : cat.householdId = req.householdId) :
    ∃ (db' : List Category) (items' : List ItemRow),
      delete_category req db items = Except.ok (db', items', [cat.name]) ∧
      (∀ c ∈ db', c ∈ db) ∧
      (∀ c ∈ db', c.id ≠ req.categoryId ∧ ¬IsDescendant db req.categoryId c.id) ∧
      (∀ c ∈ db, c.id ≠ req.categoryId → ¬IsDescendant db req.categoryId c.id →
        c ∈ db') ∧
      (∀ c ∈ db', ∀ p ∈ db, c.parentId = some p.id → p ∈ db') ∧
      items'.length = items.length ∧
      (∀ (i : Nat) (it it' : ItemRow), items[i]? = some it → items'[i]? = some it' →
        it'.id = it.id ∧ it'.householdId = it.householdId ∧
        (it'.categoryId = it.categoryId ∨ it'.categoryId = none)) ∧
      (∀ it' ∈ items', ∀ cid, it'.categoryId = some cid →
        cid ≠ req.categoryId ∧ ¬IsDescendant db req.categoryId cid) := by
  have hfind : db.filter (fun c => c.id == req.categoryId &&
      c.householdId == req.householdId) = [cat] := by
    refine filter_eq_singleton_of_nodup_ids hwf.1 hcat ?_ ?_
    · simp [hcatid, hcathh]
    · intro x hx
      have hx1 : (x.id == req.categoryId) = true := by
        cases h1 : (x.id == req.categoryId) with
        | true => rfl
        | false => rw [h1, Bool.false_and] at hx; cases hx
      have hx2 : x.id = req.categoryId := by simpa using hx1
      rw [hx2, hcatid]
  have heq : delete_category req db items = Except.ok
      (db.filter (fun c =>
        !((get_children_ids db (db.length + 4) req.categoryId).contains c.id)),
       items.map (fun it =>
         match it.categoryId with
         | some cid =>
             if (get_children_ids db (db.length + 4) req.categoryId).contains cid
             then { it with categoryId := none } else it
         | none => it),
       [cat.name]) := by
    unfold delete_category
    rw [hfind]
    rfl
  have hdel_self : req.categoryId ∈
      get_children_ids db (db.length + 4) req.categoryId :=
    get_children_ids_head db (db.length + 3) req.categoryId
  have hdel_complete : ∀ d ∈ db, IsDescendant db req.categoryId d.id →
      d.id ∈ get_children_ids db (db.length + 4) req.categoryId := by
    intro d hd hdesc
    rw [← hcatid] at hdesc ⊢
    refine get_children_ids_complete hwf (db.length + 4) cat d hcat hd hdesc ?_
    have h1 := (hwf.2.1 cat hcat).1
    have h2 := (hwf.2.1 d hd).2
    omega
  refine ⟨_, _, heq, ?_, ?_, ?_, ?_, ?_, ?_, ?_⟩
  · intro c hc
    exact ((filter_del_spec db _ c).mp hc).1
  · intro c hc
    have h := (filter_del_spec db _ c).mp hc
    constructor
    · intro he
      apply h.2
      rw [he]
      exact hdel_self
    · intro hdesc
      exact h.2 (hdel_complete c h.1 hdesc)
  · intro c hc hne hnd
    refine (filter_del_spec db _ c).mpr ⟨hc, fun hmem => ?_⟩
    rcases get_children_ids_sound _ _ _ hmem with he | hd
    · exact hne he
    · exact hnd hd
  · intro c hc p hp hpar
    have h := (filter_del_spec db _ c).mp hc
    refine (filter_del_spec db _ p).mpr ⟨hp, fun hmem => ?_⟩
    rcases get_children_ids_sound _ _ _ hmem with he | hd
    · refine h.2 (hdel_complete c h.1 ?_)
      rw [he] at hpar
      exact IsDescendant.child c h.1 hpar
    · exact h.2 (hdel_complete c h.1 (IsDescendant.step c h.1 hpar hd))
  · exact List.length_map _ _
  · intro i it it' hit hit'
    rw [List.getElem?_map, hit] at hit'
    simp only [Option.map_some'] at hit'
    injection hit' with hit'
    subst hit'
    cases hc0 : it.categoryId with
    | none => exact ⟨rfl, rfl, Or.inl hc0⟩
    | some cid0 =>
        dsimp only
        rcases Bool.eq_false_or_eq_true
            ((get_children_ids db (db.length + 4) req.categoryId).contains cid0)
          with hcon | hcon
        · rw [if_pos hcon]
          exact ⟨rfl, rfl, Or.inr rfl⟩
        · rw [if_neg (by rw [hcon]; exact Bool.false_ne_true)]
          exact ⟨rfl, rfl, Or.inl hc0⟩
  · intro it' hit' cid hcid
    rcases List.mem_map.mp hit' with ⟨it, hit, rfl⟩
    cases hc0 : it.categoryId with
    | none =>
        rw [hc0] at hcid
        dsimp only at hcid
        rw [hc0] at hcid
        exact Option.noConfusion hcid
    | some cid0 =>
        rw [hc0] at hcid
        dsimp only at hcid
        rcases Bool.eq_false_or_eq_true
            ((get_children_ids db (db.length + 4) req.categoryId).contains cid0)
          with hcon | hcon
        · rw [if_pos hcon] at hcid
          dsimp only at hcid
          exact Option.noConfusion hcid
        · rw [if_neg (by rw [hcon]; exact Bool.false_ne_true)] at hcid
          rw [hc0] at hcid
          injection hcid with hcc
          subst hcc
          have hnotin : cid0 ∉
              get_children_ids db (db.length + 4) req.categoryId := by
            intro hmem
            have hcc2 : (get_children_ids db
                (db.length + 4) req.categoryId).contains cid0 = true :=
              List.elem_eq_true_of_mem hmem
            rw [hcc2] at hcon
            exact Bool.noConfusion hcon
          constructor
          · intro he
            refine hnotin ?_
            rw [he]
            exact hdel_self
          · intro hdesc
            rcases isDescendant_row hdesc with ⟨d, hd, hdid⟩
            refine hnotin ?_
            have hmm := hdel_complete d hd (by rw [hdid]; exact hdesc)
            rw [hdid] at hmm
            exact hmm

/-- Witness for claim C7: deleting "Kitchen" from the five-row table
removes "Kitchen", "Utensils" and "Forks", keeps "Room" and "NewParent",
emits the single record ["Kitchen"], clears item i1's reference to the
deleted "Forks" and keeps item i2's reference to the surviving "Room". -/
theorem C7_cascade_delete_witness :
    ∃ (db' : List Category) (items' : List ItemRow),
      delete_category ⟨"h", "k"⟩
          [⟨"k", "h", "Kitchen", none, 1⟩, ⟨"u", "h", "Utensils", some "k", 2⟩,
           ⟨"f", "h", "Forks", some "u", 3⟩, ⟨"r", "h", "Room", none, 1⟩,
           ⟨"n", "h", "NewParent", some "r", 2⟩]
          [⟨"i1", "h", some "f"⟩, ⟨"i2", "h", some "r"⟩]
        = Except.ok (db', items', ["Kitchen"]) ∧
      (∀ c ∈ db', c ∈
        [(⟨"k", "h", "Kitchen", none, 1⟩ : Category),
         ⟨"u", "h", "Utensils", some "k", 2⟩, ⟨"f", "h", "Forks", some "u", 3⟩,
         ⟨"r", "h", "Room", none, 1⟩, ⟨"n", "h", "NewParent", some "r", 2⟩]) ∧
      (∀ c ∈ db', c.id ≠ "k" ∧ ¬IsDescendant
        [⟨"k", "h", "Kitchen", none, 1⟩, ⟨"u", "h", "Utensils", some "k", 2⟩,
         ⟨"f", "h", "Forks", some "u", 3⟩, ⟨"r", "h", "Room", none, 1⟩,
         ⟨"n", "h", "NewParent", some "r", 2⟩] "k" c.id) ∧
      (∀ c ∈ [(⟨"k", "h", "Kitchen", none, 1⟩ : Category),
         ⟨"u", "h", "Utensils", some "k", 2⟩, ⟨"f", "h", "Forks", some "u", 3⟩,
         ⟨"r", "h", "Room", none, 1⟩, ⟨"n", "h", "NewParent", some "r", 2⟩],
        c.id ≠ "k" → ¬IsDescendant
          [⟨"k", "h", "Kitchen", none, 1⟩, ⟨"u", "h", "Utensils", some "k", 2⟩,
           ⟨"f", "h", "Forks", some "u", 3⟩, ⟨"r", "h", "Room", none, 1⟩,
           ⟨"n", "h", "NewParent", some "r", 2⟩] "k" c.id → c ∈ db') ∧
      (∀ c ∈ db', ∀ p ∈ [(⟨"k", "h", "Kitchen", none, 1⟩ : Category),
         ⟨"u", "h", "Utensils", some "k", 2⟩, ⟨"f", "h", "Forks", some "u", 3⟩,
         ⟨"r", "h", "Room", none, 1⟩, ⟨"n", "h", "NewParent", some "r", 2⟩],
        c.parentId = some p.id → p ∈ db') ∧
      items'.length =
        ([⟨"i1", "h", some "f"⟩, ⟨"i2", "h", some "r"⟩] : List ItemRow).length ∧
      (∀ (i : Nat) (it it' : ItemRow),
        ([⟨"i1", "h", some "f"⟩, ⟨"i2", "h", some "r"⟩] : List ItemRow)[i]? = some it →
        items'[i]? = some it' →
        it'.id = it.id ∧ it'.householdId = it.householdId ∧
        (it'.categoryId = it.categoryId ∨ it'.categoryId = none)) ∧
      (∀ it' ∈ items', ∀ cid, it'.categoryId = some cid →
        cid ≠ "k" ∧ ¬IsDescendant
          [⟨"k", "h", "Kitchen", none, 1⟩, ⟨"u", "h", "Utensils", some "k", 2⟩,
           ⟨"f", "h", "Forks", some "u", 3⟩, ⟨"r", "h", "Room", none, 1⟩,
           ⟨"n", "h", "NewParent", some "r", 2⟩] "k" cid) :=
  C7_cascade_delete ⟨"h", "k"⟩
    [⟨"k", "h", "Kitchen", none, 1⟩, ⟨"u", "h", "Utensils", some "k", 2⟩,
     ⟨"f", "h", "Forks", some "u", 3⟩, ⟨"r", "h", "Room", none, 1⟩,
     ⟨"n", "h", "NewParent", some "r", 2⟩]
    [⟨"i1", "h", some "f"⟩, ⟨"i2", "h", some "r"⟩]
    ⟨"k", "h", "Kitchen", none, 1⟩ (by decide) (by decide) rfl rfl

/-! ### Claim C5 -/

theorem except_bind_eq_ok {ε α β : Type} {e : Except ε α} {f : α → Except ε β}
    {b : β} (h : (e >>= f) = Except.ok b) :
    ∃ a, e = Except.ok a ∧ f a = Except.ok b := by
  cases e with
  | error e' =>
      rw [except_bind_err] at h
      exact Except.noConfusion h
  | ok a => exact ⟨a, rfl, h⟩

/-- A successful flush of a single-row update whose target keeps the
original row's id and level leaves every row's (id, level) pair in
place. -/
theorem flush_preserves_id_level {db db' : List Category}
    {category target : Category}
    (hnd : (db.map (fun c => c.id)).Nodup) (hcat : category ∈ db)
    (hid : target.id = category.id) (hlvl : target.level = category.level)
    (hfl : flush_category_update db target = Except.ok db') :
    db'.map (fun c => (c.id, c.level)) = db.map (fun c => (c.id, c.level)) := by
  unfold flush_category_update at hfl
  try dsimp only at hfl
  rcases Bool.eq_false_or_eq_true (category_row_constraints_ok target &&
      category_fk_parent_ok
        (db.map (fun c => if c.id == target.id then target else c)) target)
    with hcond | hcond
  · rw [if_pos hcond] at hfl
    injection hfl with hfl
    rw [← hfl, List.map_map]
    refine List.map_eq_map_iff.mpr ?_
    intro c hcdb
    dsimp only [Function.comp]
    rcases Bool.eq_false_or_eq_true (c.id == target.id) with hcc | hcc
    · rw [if_pos hcc]
      have hcid : c.id = target.id := by simpa using hcc
      have hceq : c = category :=
        List.inj_on_of_nodup_map hnd hcdb hcat (by rw [hcid, hid])
      rw [hid, hlvl, hceq]
    · rw [if_neg (by rw [hcc]; exact Bool.false_ne_true)]
  · rw [if_neg (by rw [hcond]; exact Bool.false_ne_true)] at hfl
    exact Except.noConfusion hfl

/-- Claim C5, amended.  `update_category` never recomputes any level: on
every successful call each category row keeps its id and its stored
level, in place (in particular a reparented category does not get the
depth of its new position, and no descendant is shifted by any
levelDiff; only the target row's name and parent reference can
change). -/
theorem C5_level_never_recomputed (req : UpdateCategoryRequest)
    (db db' : List Category)
    (hnd : (db.map (fun c => c.id)).Nodup)
    (hok : update_category req db = Except.ok db') :
    db'.map (fun c => (c.id, c.level)) = db.map (fun c => (c.id, c.level)) := by
  unfold update_category at hok
  rcases except_bind_eq_ok hok with ⟨category?, hscalar, hok⟩
  cases category? with
  | none =>
      try dsimp only at hok
      exact Except.noConfusion hok
  | some category =>
      try dsimp only at hok
      have hcatmem : category ∈ db := by
        have hfil := scalarOneOrNone_ok_some hscalar
        have hmem : category ∈ db.filter (fun c =>
            c.id == req.categoryId && c.householdId == req.householdId) := by
          rw [hfil]
          exact List.mem_cons_self _ _
        exact List.mem_of_mem_filter hmem
      rcases except_bind_eq_ok hok with ⟨oldv, holdv, hok⟩
      try dsimp only at hok
      rcases except_bind_eq_ok hok with ⟨nb, hnb, hok⟩
      try dsimp only at hok
      cases hrp : req.parentId with
      | none =>
          rw [hrp] at hok
          try dsimp only at hok
          rcases Bool.eq_false_or_eq_true nb.2 with hch | hch
          · rw [if_pos hch] at hok
            refine flush_preserves_id_level hnd hcatmem ?_ ?_ hok <;> rfl
          · rw [if_neg (by rw [hch]; exact Bool.false_ne_true)] at hok
            injection hok with hok
            rw [← hok]
      | some pidStr =>
          rw [hrp] at hok
          try dsimp only at hok
          rcases Bool.eq_false_or_eq_true
              (pidStr == "" && category.parentId != none) with hc1 | hc1
          · rw [if_pos hc1] at hok
            refine flush_preserves_id_level hnd hcatmem ?_ ?_ hok <;> rfl
          · rw [if_neg (by rw [hc1]; exact Bool.false_ne_true)] at hok
            cases hu : str_to_uuid? pidStr with
            | none =>
                rw [hu] at hok
                try dsimp only at hok
                exact Except.noConfusion hok
            | some pid =>
                rw [hu] at hok
                try dsimp only at hok
                rcases Bool.eq_false_or_eq_true (pid == req.categoryId)
                  with hc2 | hc2
                · rw [if_pos hc2] at hok
                  exact Except.noConfusion hok
                · rw [if_neg (by rw [hc2]; exact Bool.false_ne_true)] at hok
                  rcases Bool.eq_false_or_eq_true
                      ((collect_descendant_ids db (db.length + 4)
                        category.id).contains pid) with hc3 | hc3
                  · rw [if_pos hc3] at hok
                    exact Except.noConfusion hok
                  · rw [if_neg (by rw [hc3]; exact Bool.false_ne_true)] at hok
                    rcases except_bind_eq_ok hok with ⟨nlv, hnlv, hok⟩
                    try dsimp only at hok
                    rcases except_bind_eq_ok hok with ⟨clv, hclv, hok⟩
                    try dsimp only at hok
                    by_cases hlt : MAX_LEVEL_NUM < clv + nlv.length
                    · rw [if_pos hlt] at hok
                      exact Except.noConfusion hok
                    · rw [if_neg hlt] at hok
                      rcases except_bind_eq_ok hok with ⟨dup?, hdupq, hok⟩
                      cases dup? with
                      | some dd =>
                          try dsimp only at hok
                          exact Except.noConfusion hok
                      | none =>
                          try dsimp only at hok
                          refine flush_preserves_id_level hnd hcatmem ?_ ?_ hok <;> rfl

/-- Witness for claim C5 at the C5 counterexample input: the successful
reparent of "C" from "p1" to "q2" leaves every row's (id, level) pair
unchanged. -/
theorem C5_level_never_recomputed_witness :
    ([⟨"p1", "h", "P1", none, 1⟩, ⟨"c", "h", "C", some "q2", 2⟩,
      ⟨"q1", "h", "Q1", none, 1⟩, ⟨"q2", "h", "Q2", some "q1", 2⟩] :
        List Category).map (fun c => (c.id, c.level)) =
    ([⟨"p1", "h", "P1", none, 1⟩, ⟨"c", "h", "C", some "p1", 2⟩,
      ⟨"q1", "h", "Q1", none, 1⟩, ⟨"q2", "h", "Q2", some "q1", 2⟩] :
        List Category).map (fun c => (c.id, c.level)) :=
  C5_level_never_recomputed ⟨"h", "c", none, some "q2"⟩
    [⟨"p1", "h", "P1", none, 1⟩, ⟨"c", "h", "C", some "p1", 2⟩,
     ⟨"q1", "h", "Q1", none, 1⟩, ⟨"q2", "h", "Q2", some "q1", 2⟩]
    [⟨"p1", "h", "P1", none, 1⟩, ⟨"c", "h", "C", some "q2", 2⟩,
     ⟨"q1", "h", "Q1", none, 1⟩, ⟨"q2", "h", "Q2", some "q1", 2⟩]
    (by decide) (by decide)

/-! ### Claim C8 -/

theorem except_bind_eq_error {ε α β : Type} {e : Except ε α}
    {f : α → Except ε β} {err : ε} (h : (e >>= f) = Except.error err) :
    e = Except.error err ∨ ∃ a, e = Except.ok a ∧ f a = Except.error err := by
  cases e with
  | error e' =>
      rw [except_bind_err] at h
      injection h with h
      exact Or.inl (by rw [h])
  | ok a => exact Or.inr ⟨a, rfl, h⟩

theorem scalarOneOrNone_ne_nameExists {α : Type} (l : List α) :
    scalarOneOrNone l ≠ Except.error Err.categoryNameAlreadyExists := by
  intro h
  cases l with
  | nil => simp [scalarOneOrNone] at h
  | cons x xs => cases xs <;> simp [scalarOneOrNone] at h

theorem category_by_id_ne_nameExists (db : List Category) (cid : String) :
    category_by_id db cid ≠ Except.error Err.categoryNameAlreadyExists :=
  scalarOneOrNone_ne_nameExists _

/-- The ancestor-name walk can fail, but never with the duplicate-name
error. -/
theorem get_level_names_aux_ne_nameExists (db : List Category) :
    ∀ (fuel : Nat) (visited : List String) (c : Category),
      get_level_names_aux db fuel visited c ≠
        Except.error Err.categoryNameAlreadyExists := by
  intro fuel
  induction fuel with
  | zero =>
      intro visited c h
      exact Except.noConfusion h
  | succ f ih =>
      intro visited c h
      unfold get_level_names_aux at h
      rcases Bool.eq_false_or_eq_true (visited.contains c.id) with hv | hv
      · rw [if_pos hv] at h
        injection h with h
        exact Err.noConfusion h
      · rw [if_neg (by rw [hv]; exact Bool.false_ne_true)] at h
        cases hp : c.parentId with
        | none =>
            rw [hp] at h
            exact Except.noConfusion h
        | some pid =>
            rw [hp] at h
            try dsimp only at h
            rcases except_bind_eq_error h with herr | ⟨p?, hp2, h2⟩
            · exact category_by_id_ne_nameExists db pid herr
            · cases p? with
              | none =>
                  try dsimp only at h2
                  exact Except.noConfusion h2
              | some parent =>
                  try dsimp only at h2
                  rcases except_bind_eq_error h2 with herr | ⟨rest, hrest, h3⟩
                  · exact ih (c.id :: visited) parent herr
                  · try dsimp only at h3
                    exact Except.noConfusion h3

theorem get_level_names_ne_nameExists (db : List Category)
    (cid? : Option String) :
    get_level_names db cid? ≠ Except.error Err.categoryNameAlreadyExists := by
  intro h
  unfold get_level_names at h
  cases cid? with
  | none => exact Except.noConfusion h
  | some cid =>
      try dsimp only at h
      rcases except_bind_eq_error h with herr | ⟨c?, hc, h2⟩
      · exact category_by_id_ne_nameExists db cid herr
      · cases c? with
        | none =>
            try dsimp only at h2
            injection h2 with h2
            exact Err.noConfusion h2
        | some c =>
            try dsimp only at h2
            exact get_level_names_aux_ne_nameExists db (db.length + 4) [] c h2

/-- The flush step can fail, but only with the integrity error. -/
theorem flush_ne_nameExists (db : List Category) (target : Category) :
    flush_category_update db target ≠
      Except.error Err.categoryNameAlreadyExists := by
  intro h
  unfold flush_category_update at h
  try dsimp only at h
  rcases Bool.eq_false_or_eq_true (category_row_constraints_ok target &&
      category_fk_parent_ok
        (db.map (fun c => if c.id == target.id then target else c)) target)
    with hc | hc
  · rw [if_pos hc] at h
    exact Except.noConfusion h
  · rw [if_neg (by rw [hc]; exact Bool.false_ne_true)] at h
    injection h with h
    exact Err.noConfusion h

/-- Claim C8, amended.  The duplicate-name check runs exactly on the
reparent-under-a-real-parent path: (i) moving `cat` under an existing
category `P` (no rename, all earlier checks passing) is rejected with
the duplicate-name error when exactly one same-household sibling under
`P` already carries `cat`'s name; (ii) a request whose parent field is
absent (the rename path) or the empty string (the move-to-root path)
can never produce the duplicate-name error - those paths perform no
duplicate check at all. -/
theorem C8_duplicate_check_scope
    (req : UpdateCategoryRequest) (db : List Category) (cat P d : Category)
    (hwf : CatWF db)
    (hcat : cat ∈ db) (hcatid : cat.id = req.categoryId)
    (hcathh : cat.householdId = req.householdId)
    (hname : req.name = none)
    (hP : P ∈ db) (hreqp : req.parentId = some P.id)
    (hPne : P.id ≠ "") (hPnc : P.id ≠ req.categoryId)
    (hnodesc : ¬IsDescendant db cat.id P.id)
    (hlvl : check_children_level_recursive db cat.id 1 + P.level.toNat ≤
      MAX_LEVEL_NUM)
    (hdup : db.filter (fun c => c.householdId == req.householdId &&
        c.name == cat.name && c.parentId == some P.id) = [d]) :
    update_category req db = Except.error Err.categoryNameAlreadyExists ∧
    ∀ (req2 : UpdateCategoryRequest) (db2 : List Category),
      (req2.parentId = none ∨ req2.parentId = some "") →
      update_category req2 db2 ≠
        Except.error Err.categoryNameAlreadyExists := by
  constructor
  · unfold update_category
    have hfind : db.filter (fun c => c.id == req.categoryId &&
        c.householdId == req.householdId) = [cat] := by
      refine filter_eq_singleton_of_nodup_ids hwf.1 hcat ?_ ?_
      · simp [hcatid, hcathh]
      · intro x hx
        have hx1 : (x.id == req.categoryId) = true := by
          cases h1 : (x.id == req.categoryId) with
          | true => rfl
          | false => rw [h1, Bool.false_and] at hx; cases hx
        have hx2 : x.id = req.categoryId := by simpa using hx1
        rw [hx2, hcatid]
    rw [hfind]
    simp only [scalarOneOrNone, except_bind_ok]
    have hold : ∃ v, get_level_names db cat.parentId = Except.ok v := by
      cases hp : cat.parentId with
      | none => exact ⟨[], rfl⟩
      | some op =>
          rcases hwf.2.2.2.2 cat hcat with hnone | ⟨q, hq, hqid⟩
          · rw [hnone] at hp; cases hp
          · rw [hqid] at hp
            injection hp with hp'
            subst hp'
            rcases get_level_names_ok hwf hq with ⟨names0, hnames0, -⟩
            exact ⟨names0, hnames0⟩
    rcases hold with ⟨oldv, holdv⟩
    rw [holdv]
    simp only [except_bind_ok]
    rw [hname]
    simp only [except_bind_ok]
    rw [hreqp]
    dsimp only
    have hPne' : (P.id == "") = false := by
      cases h : (P.id == "") with
      | false => rfl
      | true => exact absurd (by simpa using h) hPne
    rw [hPne']
    simp only [Bool.false_and, Bool.false_eq_true, if_false]
    unfold str_to_uuid?
    rw [hPne']
    simp only [Bool.false_eq_true, if_false]
    have hPnc' : (P.id == req.categoryId) = false := by
      cases h : (P.id == req.categoryId) with
      | false => rfl
      | true => exact absurd (by simpa using h) hPnc
    rw [hPnc']
    simp only [Bool.false_eq_true, if_false]
    have hcont : (collect_descendant_ids db (db.length + 4) cat.id).contains P.id
        = false := by
      cases hcon : (collect_descendant_ids db (db.length + 4)
          cat.id).contains P.id with
      | false => rfl
      | true =>
          have hmem := List.mem_of_elem_eq_true hcon
          exact absurd (collect_descendant_ids_sound hmem) hnodesc
    rw [hcont]
    simp only [Bool.false_eq_true, if_false]
    rcases get_level_names_ok hwf hP with ⟨names, hnames, hnameslen⟩
    rw [hnames]
    simp only [except_bind_ok]
    unfold get_children_max_level_num
    have hcbi : category_by_id db cat.id = Except.ok (some cat) :=
      category_by_id_eq hwf hcat
    rw [hcbi]
    simp only [except_bind_ok]
    have hcond : ¬(MAX_LEVEL_NUM < check_children_level_recursive db cat.id 1 +
        names.length) := by
      rw [hnameslen]
      omega
    rw [if_neg hcond]
    rw [hdup]
    simp only [scalarOneOrNone, except_bind_ok]
  · intro req2 db2 hcase h
    unfold update_category at h
    rcases except_bind_eq_error h with herr | ⟨c?, hc, h⟩
    · exact scalarOneOrNone_ne_nameExists _ herr
    · cases c? with
      | none =>
          try dsimp only at h
          injection h with h
          exact Err.noConfusion h
      | some category =>
          try dsimp only at h
          rcases except_bind_eq_error h with herr | ⟨oldv, holdv, h⟩
          · exact get_level_names_ne_nameExists db2 category.parentId herr
          · try dsimp only at h
            rcases except_bind_eq_error h with herr | ⟨nb, hnb, h⟩
            · cases hn : req2.name with
              | none =>
                  rw [hn] at herr
                  exact Except.noConfusion herr
              | some n =>
                  rw [hn] at herr
                  try dsimp only at herr
                  rcases Bool.eq_false_or_eq_true ((pyStrip n).length == 0)
                    with ht | ht
                  · rw [if_pos ht] at herr
                    injection herr with herr
                    exact Err.noConfusion herr
                  · rw [if_neg (by rw [ht]; exact Bool.false_ne_true)] at herr
                    rcases Bool.eq_false_or_eq_true (pyStrip n != category.name)
                      with ht2 | ht2
                    · rw [if_pos ht2] at herr
                      exact Except.noConfusion herr
                    · rw [if_neg (by rw [ht2]; exact Bool.false_ne_true)] at herr
                      exact Except.noConfusion herr
            · try dsimp only at h
              rcases hcase with hc2 | hc2
              · rw [hc2] at h
                try dsimp only at h
                rcases Bool.eq_false_or_eq_true nb.2 with hch | hch
                · rw [if_pos hch] at h
                  exact flush_ne_nameExists db2 _ h
                · rw [if_neg (by rw [hch]; exact Bool.false_ne_true)] at h
                  exact Except.noConfusion h
              · rw [hc2] at h
                try dsimp only at h
                rcases Bool.eq_false_or_eq_true
                    (("" == "") && category.parentId != none) with hcc | hcc
                · rw [if_pos hcc] at h
                  exact flush_ne_nameExists db2 _ h
                · rw [if_neg (by rw [hcc]; exact Bool.false_ne_true)] at h
                  rw [show str_to_uuid? "" = none from rfl] at h
                  try dsimp only at h
                  injection h with h
                  exact Err.noConfusion h

/-- Witness for claim C8: reparenting "u" (named "U") under "n" collides
with the existing sibling "d" (also named "U") and is rejected with the
duplicate-name error, while the rename of "b" to the already-taken root
name "A" does not produce that error (it is not checked at all). -/
theorem C8_duplicate_check_scope_witness :
    update_category ⟨"h", "u", none, some "n"⟩
        [⟨"k", "h", "K", none, 1⟩, ⟨"u", "h", "U", some "k", 2⟩,
         ⟨"n", "h", "N", none, 1⟩, ⟨"d", "h", "U", some "n", 2⟩]
      = Except.error Err.categoryNameAlreadyExists ∧
    update_category ⟨"h", "b", some "A", none⟩
        [⟨"a", "h", "A", none, 1⟩, ⟨"b", "h", "B", none, 1⟩]
      ≠ Except.error Err.categoryNameAlreadyExists := by
  have hnod : ¬IsDescendant
      [⟨"k", "h", "K", none, 1⟩, ⟨"u", "h", "U", some "k", 2⟩,
       ⟨"n", "h", "N", none, 1⟩, ⟨"d", "h", "U", some "n", 2⟩] "u" "n" := by
    intro hdesc
    rcases isDescendant_decomp hdesc with ⟨c, hc, hp, -⟩
    fin_cases hc <;> exact absurd hp (by decide)
  have h := C8_duplicate_check_scope ⟨"h", "u", none, some "n"⟩
    [⟨"k", "h", "K", none, 1⟩, ⟨"u", "h", "U", some "k", 2⟩,
     ⟨"n", "h", "N", none, 1⟩, ⟨"d", "h", "U", some "n", 2⟩]
    ⟨"u", "h", "U", some "k", 2⟩ ⟨"n", "h", "N", none, 1⟩
    ⟨"d", "h", "U", some "n", 2⟩
    (by decide) (by decide) rfl rfl rfl (by decide) rfl (by decide) (by decide)
    hnod (by decide) (by decide)
  exact ⟨h.1, h.2 ⟨"h", "b", some "A", none⟩
    [⟨"a", "h", "A", none, 1⟩, ⟨"b", "h", "B", none, 1⟩] (Or.inl rfl)⟩

/-- Claim C1, counterexample.  The spec asserts that the batch
`[(X, A→B, 4), (X, B→C, 4)]` on item X starting at `A ↦ 4` succeeds and
yields `C ↦ 4` because the second leg observes leg 1's result.  In the
code the validation pass runs over every leg *before* the apply pass, so
leg 2's source check sees the original snapshot, finds no row for `B`,
and the whole request is rejected. -/
theorem C1_counterexample :
    update_item_position_endpoint ["X"] ["A", "B", "C"] "X"
      [⟨some "A", some "B", 4, false⟩, ⟨some "B", some "C", 4, false⟩]
      [⟨"X", some "A", 4⟩] = Except.error Err.requestParametersInvalid := by
  decide

/-- Claim C3 (code bug).  Both legs of `[(A→B, 4), (A→C, 4)]` pass
validation against the snapshot `A ↦ 4`; during the apply pass the first
leg marks the `A` row deleted, but with `autoflush=False` the second
leg's SELECT still returns that row with its stale quantity 4, so both
legs move 4 units out of a location holding 4 in total.  The batch
commits `B ↦ 4, C ↦ 4`: the item's total quantity jumps from 4 to 8 and
conservation is violated. -/
theorem C3_conservation_violated :
    update_item_position_endpoint ["X"] ["A", "B", "C"] "X"
        [⟨some "A", some "B", 4, false⟩, ⟨some "A", some "C", 4, false⟩]
        [⟨"X", some "A", 4⟩]
      = Except.ok [⟨"X", some "B", 4⟩, ⟨"X", some "C", 4⟩] ∧
    totalQuantity [⟨"X", some "A", 4⟩] "X" = 4 ∧
    totalQuantity [⟨"X", some "B", 4⟩, ⟨"X", some "C", 4⟩] "X" = 8 := by
  refine ⟨by decide, by decide, by decide⟩

/-- Claim C2, counterexample.  Setting the quantity of item X at cabinet
A to 0 through `update_item_quantity` does not delete the ledger row: the
row is updated in place and retained with quantity 0. -/
theorem C2_counterexample :
    update_item_quantity ["X"] ["A"] "X" [⟨some "A", 0⟩] [⟨"X", some "A", 5⟩]
      = Except.ok [⟨"X", some "A", 0⟩] := by
  decide

/-- Claim C4, counterexample.  A delete-only leg with amount 2 on a
source row holding 5 deletes the whole row: the total drops from 5 to 0,
not by the given amount 2 (which would leave 3). -/
theorem C4_counterexample :
    update_item_position_endpoint ["X"] ["A"] "X"
        [⟨some "A", none, 2, true⟩] [⟨"X", some "A", 5⟩] = Except.ok [] ∧
    totalQuantity ([] : List QRow) "X" = 0 ∧
    totalQuantity [⟨"X", some "A", 5⟩] "X" - 2 = 3 ∧ (0 : Int) ≠ 3 := by
  refine ⟨by decide, by decide, by decide, by decide⟩

/-- Claim C5, counterexample.  Reparenting category `c` (level 2 under
root `p1`) below `q2` (level 2 under root `q1`) passes every check and
commits, but the stored level of `c` is left at 2 even though its new
position's depth is 3 (`get_level_names` returns the 3-element path
`Q1;Q2;C`): a successful reparent does not set the category's level to
its new depth. -/
theorem C5_counterexample :
    update_category ⟨"h", "c", none, some "q2"⟩
        [⟨"p1", "h", "P1", none, 1⟩, ⟨"c", "h", "C", some "p1", 2⟩,
         ⟨"q1", "h", "Q1", none, 1⟩, ⟨"q2", "h", "Q2", some "q1", 2⟩]
      = Except.ok
        [⟨"p1", "h", "P1", none, 1⟩, ⟨"c", "h", "C", some "q2", 2⟩,
         ⟨"q1", "h", "Q1", none, 1⟩, ⟨"q2", "h", "Q2", some "q1", 2⟩] ∧
    get_level_names
        [⟨"p1", "h", "P1", none, 1⟩, ⟨"c", "h", "C", some "q2", 2⟩,
         ⟨"q1", "h", "Q1", none, 1⟩, ⟨"q2", "h", "Q2", some "q1", 2⟩] (some "c")
      = Except.ok ["Q1", "Q2", "C"] ∧
    (["Q1", "Q2", "C"].length : Int) ≠ 2 := by
  refine ⟨by decide, by decide, by decide⟩

/-- Claim C8, counterexample.  Renaming category `b` to `A` while its
same-household root sibling `a` is already named `A` succeeds: the rename
path performs no duplicate-name check, leaving two root siblings with the
same name. -/
theorem C8_counterexample :
    update_category ⟨"h", "b", some "A", none⟩
        [⟨"a", "h", "A", none, 1⟩, ⟨"b", "h", "B", none, 1⟩]
      = Except.ok [⟨"a", "h", "A", none, 1⟩, ⟨"b", "h", "A", none, 1⟩] := by
  decide

/-- Claim C9, counterexample.  A quantity-update request whose first leg
names cabinet `B`, which does not belong to the household, succeeds: the
unknown-location leg is silently skipped (`continue`) while the second
leg is applied, instead of the whole operation failing with a
location-not-found error. -/
theorem C9_counterexample :
    update_item_quantity ["X"] ["A"] "X" [⟨some "B", 7⟩, ⟨some "A", 2⟩]
        [⟨"X", some "A", 5⟩]
      = Except.ok [⟨"X", some "A", 2⟩] := by
  decide

end Warehouse
